import Mathlib

/-!
Shallow embedding of the cache-aware prefill scheduling core of this
repository (`simulator.go`, `hotspot_migration.go`): the block/node data
model, the FIFO/LRU/LFU eviction policies, the node selectors and the
per-request prefill processor, together with proofs about the claims of
the specification.

Modeling conventions:
* Go `int` becomes `Int`; Go `float64` becomes `ℚ` (exact rational
  arithmetic standing in for IEEE-754 doubles; decimal float literals
  such as `0.05` are modeled by the rationals they denote).
* Go integer division and modulus truncate toward zero; they are modeled
  by `Int.tdiv` / `Int.tmod`.
* Go maps become association lists `List (κ × α)` with `alookup` /
  `aset` / `aerase`.  Go map iteration order is unspecified; where the
  code iterates over a map, the model iterates in the stored list order.
* `container/list` doubly linked lists become `List Int`; the Go side
  tables from block ID to list element (`orderNodes`, `blockNodes`) are
  modeled by ID membership, which matches the pointer structure exactly
  under the representation invariant that an ID occurs at most once.
* Pointer identity of nodes is modeled by the index of the node in the
  node list; selectors return the selected index.
-/

namespace K3

/-- Association-list lookup, Go `m[k]` in its comma-ok form. -/
def alookup {κ α : Type} [DecidableEq κ] : List (κ × α) → κ → Option α
  | [], _ => none
  | (k, v) :: rest, key => if key = k then some v else alookup rest key

/-- Association-list delete, Go `delete(m, k)`: removes the binding of `key`
(the first one; keys are unique in every reachable map). -/
def aerase {κ α : Type} [DecidableEq κ] : List (κ × α) → κ → List (κ × α)
  | [], _ => []
  | (k, v) :: rest, key => if key = k then rest else (k, v) :: aerase rest key

/-- Association-list store, Go `m[k] = v`. -/
def aset {κ α : Type} [DecidableEq κ] (m : List (κ × α)) (key : κ) (v : α) : List (κ × α) :=
  (key, v) :: aerase m key

/-- Keys of an association list. -/
def akeys {κ α : Type} (m : List (κ × α)) : List κ := m.map Prod.fst

/-- Go `Block`: one KV-cache block (`simulator.go`). -/
structure Block where
  hashID : Int
  size : Int
  hitCount : Int
  accessSeq : Int
  createSeq : Int
  refCount : Int
deriving DecidableEq

/-- Go `Request`: one inference request (`simulator.go`). -/
structure Request where
  timestamp : Int
  inputLength : Int
  outputLength : Int
  hashIDs : List Int
deriving DecidableEq

/-- Internal state of Go `LFUEviction`.  `blockNodes` is the key set of the
Go `blockID -> *list.Element` map (membership models the pointer table). -/
structure LFUState where
  freqGroups : List (Int × List Int)
  blockFreq : List (Int × Int)
  blockNodes : List Int
  minFreq : Int
deriving DecidableEq

/-- Frequency bucket of the LFU structure; Go `l.freqGroups[freq]` with a
`nil` list read as empty. -/
def groupOf (groups : List (Int × List Int)) (f : Int) : List Int :=
  (alookup groups f).getD []

/-- Go map-set that never duplicates an element (models adding a key to a
Go map used as a set). -/
def minsert (l : List Int) (x : Int) : List Int :=
  if x ∈ l then l else x :: l

/-- Go `LFUEviction.addToFreqGroup`: push the ID to the back of the bucket
and record it in `blockNodes`. -/
def addToFreqGroup (st : LFUState) (blockID f : Int) : LFUState :=
  { st with
    freqGroups := aset st.freqGroups f (groupOf st.freqGroups f ++ [blockID]),
    blockNodes := minsert st.blockNodes blockID }

/-- Go `LFUEviction.removeFromFreqGroup`: if the ID is tracked, remove its
element from the bucket of `f` and drop it from `blockNodes`. -/
def removeFromFreqGroup (st : LFUState) (blockID f : Int) : LFUState :=
  if blockID ∈ st.blockNodes then
    { st with
      freqGroups := aset st.freqGroups f ((groupOf st.freqGroups f).erase blockID),
      blockNodes := st.blockNodes.erase blockID }
  else st

/-- Go `LFUEviction.removeBlock`. -/
def lfuRemoveBlock (st : LFUState) (blockID : Int) : LFUState :=
  let f := (alookup st.blockFreq blockID).getD 0
  let st1 := removeFromFreqGroup st blockID f
  { st1 with blockFreq := aerase st1.blockFreq blockID }

/-- Go `LFUEviction.OnAdd`: new blocks start at frequency 1 and reset
`minFreq` to 1. -/
def lfuOnAdd (st : LFUState) (blockID : Int) : LFUState :=
  let st1 := addToFreqGroup st blockID 1
  { st1 with blockFreq := aset st1.blockFreq blockID 1, minFreq := 1 }

/-- Go `LFUEviction.UpdateOnAccess` (the bookkeeping part; the hit-count
increment on the block itself is done by the caller model). -/
def lfuOnAccess (st : LFUState) (blockID : Int) : LFUState :=
  let oldFreq := (alookup st.blockFreq blockID).getD 0
  let newFreq := oldFreq + 1
  let st1 := if 0 < oldFreq then removeFromFreqGroup st blockID oldFreq else st
  let st2 := addToFreqGroup st1 blockID newFreq
  let st3 := { st2 with blockFreq := aset st2.blockFreq blockID newFreq }
  if oldFreq = st3.minFreq ∧ groupOf st3.freqGroups oldFreq = [] then
    { st3 with minFreq := newFreq }
  else st3

/-- Scanning loop of Go `LFUEviction.updateMinFreq`: advance the candidate
while its bucket is empty; past the safety ceiling 1000 reset to 1.  The
fuel counts loop iterations; the caller passes enough fuel for the scan to
reach the ceiling from its start value. -/
def lfuScanAux (groups : List (Int × List Int)) : Nat → Int → Int
  | 0, mf => mf
  | fuel + 1, mf =>
    if groupOf groups mf = [] then
      (if 1000 < mf + 1 then 1 else lfuScanAux groups fuel (mf + 1))
    else mf

/-- Go `LFUEviction.updateMinFreq`. -/
def lfuUpdateMinFreq (st : LFUState) : LFUState :=
  { st with
    minFreq := lfuScanAux st.freqGroups ((1001 - st.minFreq).toNat + 1) (st.minFreq + 1) }

/-- Go `LFUEviction.Evict`: `-1` is the absent sentinel. -/
def lfuEvict (st : LFUState) : Int × LFUState :=
  if st.blockFreq = [] then (-1, st)
  else
    let st1 := if groupOf st.freqGroups st.minFreq = [] then lfuUpdateMinFreq st else st
    match groupOf st1.freqGroups st1.minFreq with
    | [] => (-1, st1)
    | blockID :: _ => (blockID, lfuRemoveBlock st1 blockID)

/-- The three eviction policies (`FIFOEviction`, `LRUEviction`,
`LFUEviction` of `simulator.go`) as one closed variant.  For FIFO the list
is the insertion-order queue (head oldest); for LRU the list is the access
order (head most recent). -/
inductive EvictionState where
  | fifo (insertOrder : List Int)
  | lru (accessOrder : List Int)
  | lfu (st : LFUState)
deriving DecidableEq

/-- Go `Evict` of the active policy: returns the victim ID or `-1` and the
updated policy state.  FIFO removes the queue head, LRU the list tail, LFU
the head of the minimum-frequency bucket. -/
def evictE : EvictionState → Int × EvictionState
  | .fifo order =>
    match order with
    | [] => (-1, .fifo [])
    | blockID :: rest => (blockID, .fifo rest)
  | .lru order =>
    match order.getLast? with
    | none => (-1, .lru order)
    | some blockID => (blockID, .lru order.dropLast)
  | .lfu st =>
    let p := lfuEvict st
    (p.fst, .lfu p.snd)

/-- Go `OnAdd` of the active policy: FIFO appends at the tail, LRU prepends
at the head, LFU files the ID under frequency 1. -/
def onAddE : EvictionState → Int → EvictionState
  | .fifo order, blockID => .fifo (order ++ [blockID])
  | .lru order, blockID => .lru (blockID :: order)
  | .lfu st, blockID => .lfu (lfuOnAdd st blockID)

/-- Bookkeeping part of Go `UpdateOnAccess` of the active policy: FIFO does
not reorder, LRU moves the ID to the front if tracked, LFU moves it one
frequency bucket up. -/
def onAccessE : EvictionState → Int → EvictionState
  | .fifo order, _ => .fifo order
  | .lru order, blockID =>
    .lru (if blockID ∈ order then blockID :: order.erase blockID else order)
  | .lfu st, blockID => .lfu (lfuOnAccess st blockID)

/-- Block IDs tracked by the policy's auxiliary structures (the spec's
"eviction aux"): the order list for FIFO/LRU, the keys of `blockFreq` for
LFU (the set Go `Evict` tests for emptiness). -/
def auxIds : EvictionState → List Int
  | .fifo order => order
  | .lru order => order
  | .lfu st => akeys st.blockFreq

/-- Go `PrefixPattern` (`simulator.go`).  The prefix key encoding
`hashIDsToKey` (comma-separated decimals) is injective on ID lists, so
patterns are keyed directly by the ID list. -/
structure PrefixPattern where
  pfx : List Int
  hitCount : Int
  nodeDist : List (String × Int)
  lastHit : Int
  intensity : ℚ
  hitHistory : List Int
  trendSlope : ℚ
  predictedHot : Bool
deriving DecidableEq

/-- Go `MigrationRecord` of `simulator.go`.  The Go `Reason` field is the
formatted string `"<kind>_rf_<rf>_trend_<slope>"`; it is modeled by its
three components. -/
structure MigrationRecord where
  prefixKey : List Int
  fromNode : String
  toNode : String
  timestamp : Int
  reasonKind : String
  reasonRF : Int
  reasonTrend : ℚ
  intensity : ℚ
deriving DecidableEq

/-- Go `HotspotMetrics` (`simulator.go`). -/
structure HotspotMetrics where
  prefixPatterns : List (List Int × PrefixPattern)
  hotspotThreshold : ℚ
  replicationFactor : List (List Int × Int)
  migrationHistory : List MigrationRecord
deriving DecidableEq

/-- Go `PrefillNode` (`simulator.go`). -/
structure PrefillNode where
  id : String
  cacheBlocks : List (Int × Block)
  maxCacheSize : Int
  maxMemoryMB : Int
  usedMemoryMB : ℚ
  totalHits : Int
  totalMisses : Int
  evictionAlgo : EvictionState
  requestQueue : List Request
  processingTime : ℚ
  networkBandwidth : ℚ
  seqCounter : Int
  hotspotMetrics : Option HotspotMetrics
deriving DecidableEq

/-- Go `PrefillResult`; the selected node pointer is modeled by its index. -/
structure PrefillResult where
  selectedIdx : Nat
  cacheHits : Int
  cacheMisses : Int
  processedBlocks : List Int
  transferTime : ℚ
  processTime : ℚ
deriving DecidableEq

/-- Per-block memory cost in MB, Go `blockMemoryMB := blockSize * 2 * 4 /
(1024 * 1024)` with `blockSize = 512`. -/
def blockMemoryMB : ℚ := 512 * 2 * 4 / (1024 * 1024)

/-- One iteration bound for the eviction loop of Go
`BasicPrefillProcessor.ProcessRequest`.  The Go loop terminates because
every iteration either breaks on the `-1` sentinel or removes the victim
from the policy state; the fuel covers every state in which `Evict`
removes its result from `auxIds` (all states of the modeled system). -/
def evictFuel (n : PrefillNode) : Nat :=
  (auxIds n.evictionAlgo).length + n.cacheBlocks.length + 2

/-- Eviction loop of Go `BasicPrefillProcessor.ProcessRequest`: while the
free memory is below the per-block cost and the block map is non-empty,
ask the policy for a victim; on the `-1` sentinel break (reported by the
Boolean flag), else delete the victim from the block map and give back its
memory.  Returns the node, the count of evicted blocks and the flag. -/
def evictLoopAux : Nat → PrefillNode → Int → PrefillNode × Int × Bool
  | 0, n, evicted => (n, evicted, false)
  | fuel + 1, n, evicted =>
    if (n.maxMemoryMB : ℚ) - n.usedMemoryMB < blockMemoryMB ∧ 0 < n.cacheBlocks.length then
      let p := evictE n.evictionAlgo
      if p.fst = -1 then ({ n with evictionAlgo := p.snd }, evicted, true)
      else
        evictLoopAux fuel
          { n with
            cacheBlocks := aerase n.cacheBlocks p.fst,
            usedMemoryMB := n.usedMemoryMB - blockMemoryMB,
            evictionAlgo := p.snd }
          (evicted + 1)
    else (n, evicted, false)

/-- Accumulator of the per-request block loop of
`BasicPrefillProcessor.ProcessRequest`. -/
structure BlockAcc where
  node : PrefillNode
  hits : Int
  misses : Int
  evicted : Int
  exhausted : Bool
deriving DecidableEq

/-- Body of the per-request block loop of Go
`BasicPrefillProcessor.ProcessRequest`: on a hit bump the block's hit count
and notify the policy; on a miss run the eviction loop, then insert a
fresh block with newly stamped sequence numbers and notify the policy. -/
def processOneBlock (acc : BlockAcc) (hashID : Int) : BlockAcc :=
  match alookup acc.node.cacheBlocks hashID with
  | some b =>
    let b1 := { b with hitCount := b.hitCount + 1 }
    { acc with
      node := { acc.node with
                cacheBlocks := aset acc.node.cacheBlocks hashID b1,
                totalHits := acc.node.totalHits + 1,
                evictionAlgo := onAccessE acc.node.evictionAlgo hashID },
      hits := acc.hits + 1 }
  | none =>
    let n0 := { acc.node with totalMisses := acc.node.totalMisses + 1 }
    let r := evictLoopAux (evictFuel n0) n0 0
    let n1 := r.fst
    let n2 := { n1 with seqCounter := n1.seqCounter + 1 }
    let newBlock : Block :=
      { hashID := hashID, size := 512, hitCount := 1,
        accessSeq := n2.seqCounter, createSeq := n2.seqCounter, refCount := 0 }
    { node := { n2 with
                cacheBlocks := aset n2.cacheBlocks hashID newBlock,
                usedMemoryMB := n2.usedMemoryMB + blockMemoryMB,
                evictionAlgo := onAddE n2.evictionAlgo hashID },
      hits := acc.hits, misses := acc.misses + 1,
      evicted := acc.evicted + r.snd.fst,
      exhausted := acc.exhausted || r.snd.snd }

/-- Per-request block loop of Go `BasicPrefillProcessor.ProcessRequest`. -/
def processBlocks (hashIDs : List Int) (n : PrefillNode) : BlockAcc :=
  hashIDs.foldl processOneBlock
    { node := n, hits := 0, misses := 0, evicted := 0, exhausted := false }

/-- Queue update of Go `BasicPrefillProcessor.ProcessRequest`: append the
request, then keep only the most recent 100 entries. -/
def appendQueue (q : List Request) (req : Request) : List Request :=
  let q1 := q ++ [req]
  if 100 < q1.length then q1.drop (q1.length - 100) else q1

/-- Go `BasicPrefillProcessor.ProcessRequest` after node selection: takes
the selector's answer (`none` is the nil pointer), updates the selected
node and returns the result, the updated node list, and whether the
eviction loop ever broke out on the `-1` sentinel (the spec's
`EvictionExhausted` event, which the model records). -/
def processRequestCore (selIdx : Option Nat) (req : Request) (nodes : List PrefillNode) :
    Option PrefillResult × List PrefillNode × Bool :=
  match selIdx with
  | none => (none, nodes, false)
  | some i =>
    match nodes[i]? with
    | none => (none, nodes, false)
    | some n =>
      let n1 := { n with requestQueue := appendQueue n.requestQueue req }
      let acc := processBlocks req.hashIDs n1
      let res : PrefillResult :=
        { selectedIdx := i, cacheHits := acc.hits, cacheMisses := acc.misses,
          processedBlocks := req.hashIDs,
          transferTime := (acc.misses : ℚ) * blockMemoryMB / acc.node.networkBandwidth,
          processTime := (req.inputLength : ℚ) * (1 / 100) }
      (some res, nodes.set i acc.node, acc.exhausted)

/-- Number of the request's block IDs cached on the node, the Go hit-count
loop shared by all scoring selectors. -/
def hitCountOn (n : PrefillNode) (hashIDs : List Int) : Int :=
  hashIDs.foldl
    (fun acc hashID => if (alookup n.cacheBlocks hashID).isSome then acc + 1 else acc) 0

/-- Queue-length load proxy `len(queue) / 100.0` used by the basic,
enhanced and prefix-aware selectors. -/
def loadOf (n : PrefillNode) : ℚ := (n.requestQueue.length : ℚ) / 100

/-- Tail of the strict-maximum fold shared by all scoring selectors: the
incumbent is replaced only on a strictly greater score, so ties keep the
earliest node. -/
def selectAux (score : PrefillNode → ℚ) :
    List PrefillNode → Nat → Nat × ℚ → Nat × ℚ
  | [], _, best => best
  | n :: rest, i, best =>
    if score n > best.snd then selectAux score rest (i + 1) (i, score n)
    else selectAux score rest (i + 1) best

/-- The strict-maximum selection fold over a node list; `none` is the nil
pointer returned on an empty list. -/
def selectByScore (score : PrefillNode → ℚ) (nodes : List PrefillNode) : Option Nat :=
  match nodes with
  | [] => none
  | n0 :: rest => some (selectAux score rest 1 (0, score n0)).fst

/-- Go `RandomNodeSelector.SelectNode`; the `rand.Intn(len(nodes))` draw is
modeled by an oracle `k` reduced modulo the list length. -/
def randomSelectNode (k : Nat) (_ : Request) (nodes : List PrefillNode) : Option Nat :=
  if nodes.length = 0 then none else some (k % nodes.length)

/-- Score of Go `CacheAwareSelector.SelectNode`: raw hit count minus ten
times the normalized queue load. -/
def cacheAwareScore (req : Request) (n : PrefillNode) : ℚ :=
  (hitCountOn n req.hashIDs : ℚ) - loadOf n * 10

/-- Go `CacheAwareSelector.SelectNode`. -/
def cacheAwareSelectNode (req : Request) (nodes : List PrefillNode) : Option Nat :=
  selectByScore (cacheAwareScore req) nodes

/-- Go `EnhancedCacheAwareSelector.calculateScore`: hit ratio weighted by
`alpha` against the cluster-average-normalized load weighted by `beta`. -/
def enhancedScore (alpha beta : ℚ) (req : Request) (allNodes : List PrefillNode)
    (n : PrefillNode) : ℚ :=
  let hitRatio := (hitCountOn n req.hashIDs : ℚ) / (req.hashIDs.length : ℚ)
  let currentLoad := loadOf n
  let totalLoad := allNodes.foldl (fun acc m => acc + loadOf m) 0
  let avgLoad := totalLoad / (allNodes.length : ℚ)
  let normalizedLoad := if avgLoad > 0 then currentLoad / avgLoad else currentLoad
  alpha * hitRatio - beta * normalizedLoad

/-- Go `EnhancedCacheAwareSelector.SelectNode`. -/
def enhancedSelectNode (alpha beta : ℚ) (req : Request) (nodes : List PrefillNode) :
    Option Nat :=
  selectByScore (enhancedScore alpha beta req nodes) nodes

/-- Go `NodeConcentration` (`hotspot_migration.go`). -/
structure NodeConcentration where
  nodeId : String
  blockCount : Int
  hotBlockCount : Int
  concentrationRatio : ℚ
deriving DecidableEq

/-- Go `MigrationRecord` of `hotspot_migration.go` (a second, unrelated
record type of the same name).  The Go `Reason` string `"Concentration
ratio %.2f exceeded threshold %.2f"` is modeled by its two numbers. -/
structure HMigrationRecord where
  requestId : Int
  sourceNode : String
  targetNode : String
  migratedBlocks : List Int
  reasonRatio : ℚ
  reasonThreshold : ℚ
deriving DecidableEq

/-- Go `HotspotMigrationSelector` (`hotspot_migration.go`). -/
structure HotspotMigrationState where
  alpha : ℚ
  beta : ℚ
  migrationThreshold : ℚ
  hotspotThreshold : ℚ
  migrationInterval : Int
  requestCounter : Int
  migrationHistory : List HMigrationRecord
deriving DecidableEq

/-- Global per-ID hit totals of Go
`HotspotMigrationSelector.analyzeConcentration` (`hotBlocksGlobal`). -/
def hotBlocksGlobal (nodes : List PrefillNode) : List (Int × Int) :=
  nodes.foldl
    (fun acc n =>
      n.cacheBlocks.foldl
        (fun acc2 p => aset acc2 p.fst ((alookup acc2 p.fst).getD 0 + p.snd.hitCount))
        acc)
    []

/-- Hot-block predicate of `analyzeConcentration`: the ID's global access
frequency relative to the request counter exceeds the hotspot threshold. -/
def isHotBlock (h : HotspotMigrationState) (globalHits : List (Int × Int))
    (hashID : Int) : Bool :=
  match alookup globalHits hashID with
  | none => false
  | some hc => decide ((hc : ℚ) / (h.requestCounter : ℚ) > h.hotspotThreshold)

/-- Go `HotspotMigrationSelector.analyzeConcentration`. -/
def analyzeConcentration (h : HotspotMigrationState) (nodes : List PrefillNode) :
    List NodeConcentration :=
  let totalBlocks : Int := nodes.foldl (fun acc n => acc + (n.cacheBlocks.length : Int)) 0
  let globalHits := hotBlocksGlobal nodes
  nodes.map (fun n =>
    { nodeId := n.id,
      blockCount := (n.cacheBlocks.length : Int),
      hotBlockCount :=
        n.cacheBlocks.foldl
          (fun acc p => if isHotBlock h globalHits p.fst then acc + 1 else acc) 0,
      concentrationRatio :=
        if 0 < totalBlocks then (n.cacheBlocks.length : ℚ) / (totalBlocks : ℚ) else 0 })

/-- Go `HotspotMigrationSelector.calculateScore`: `alpha`-weighted hit
ratio, minus `beta`-weighted load (queue length over `MaxCacheSize`),
minus the concentration penalty. -/
def hCalculateScore (h : HotspotMigrationState) (req : Request)
    (allNodes : List PrefillNode) (n : PrefillNode) : ℚ :=
  let hitRatio := (hitCountOn n req.hashIDs : ℚ) / (req.hashIDs.length : ℚ)
  let currentLoad := (n.requestQueue.length : ℚ) / (n.maxCacheSize : ℚ)
  let concentrations := analyzeConcentration h allNodes
  let conc :=
    match concentrations.find? (fun c => c.nodeId == n.id) with
    | some c => c
    | none => { nodeId := "", blockCount := 0, hotBlockCount := 0, concentrationRatio := 0 }
  let concentrationPenalty :=
    if conc.concentrationRatio > h.migrationThreshold then
      (conc.concentrationRatio - h.migrationThreshold) * 2
    else 0
  h.alpha * hitRatio - h.beta * currentLoad - concentrationPenalty

/-- Go `HotspotMigrationSelector.selectNodeWithHotspotAwareness`. -/
def selectNodeWithHotspotAwareness (h : HotspotMigrationState) (req : Request)
    (nodes : List PrefillNode) : Option Nat :=
  selectByScore (hCalculateScore h req nodes) nodes

/-- Stable insertion sort by a strict-order test; models the Go sorts of
the migration code (the hand-written bubble sort is stable, and
`sort.Slice` over a Go map's unspecified iteration order is modeled as the
stable sort of the stored list order). -/
def insertSorted {α : Type} (lt : α → α → Bool) (x : α) : List α → List α
  | [] => [x]
  | y :: ys => if lt y x then y :: insertSorted lt x ys else x :: y :: ys

/-- Stable sort by a strict-order test (see `insertSorted`). -/
def sortByLt {α : Type} (lt : α → α → Bool) (l : List α) : List α :=
  l.foldr (insertSorted lt) []

/-- Go `HotspotMigrationSelector.selectBlocksForMigration`: the 20% of the
node's blocks with the lowest hit counts, at least one. -/
def selectBlocksForMigration (n : PrefillNode) (migrationRatio : ℚ) : List Int :=
  if n.cacheBlocks.length = 0 then []
  else
    let blocks := n.cacheBlocks.map (fun p => (p.fst, p.snd.hitCount))
    let sorted := sortByLt (fun a b => decide (a.snd < b.snd)) blocks
    let migrateCount : Int := max 1 ⌊(blocks.length : ℚ) * migrationRatio⌋
    let migrateCount := if (blocks.length : Int) < migrateCount then (blocks.length : Int) else migrateCount
    (sorted.take migrateCount.toNat).map Prod.fst

/-- Go map-range delete of one arbitrary key (capacity overflow handling of
`migrateBlocks`); the model removes the first stored binding. -/
def goMapDeleteOne (m : List (Int × Block)) : List (Int × Block) :=
  match m with
  | [] => []
  | _ :: rest => rest

/-- Go `HotspotMigrationSelector.migrateBlocks`, one block: delete from the
source map and store the same block record in the target map; if the
target is now over its block capacity, delete one arbitrary block.
Neither node's eviction policy is touched. -/
def migrateOne (p : PrefillNode × PrefillNode) (hashID : Int) : PrefillNode × PrefillNode :=
  match alookup p.fst.cacheBlocks hashID with
  | none => p
  | some b =>
    let src := { p.fst with cacheBlocks := aerase p.fst.cacheBlocks hashID }
    let tb1 := aset p.snd.cacheBlocks hashID b
    let tb2 := if p.snd.maxCacheSize < (tb1.length : Int) then goMapDeleteOne tb1 else tb1
    (src, { p.snd with cacheBlocks := tb2 })

/-- Go `HotspotMigrationSelector.migrateBlocks`. -/
def migrateBlocks (src tgt : PrefillNode) (blockIDs : List Int) :
    PrefillNode × PrefillNode :=
  blockIDs.foldl migrateOne (src, tgt)

/-- Go `HotspotMigrationSelector.findNodeByID`. -/
def findNodeByID (nodeID : String) (nodes : List PrefillNode) : Option Nat :=
  nodes.findIdx? (fun n => n.id == nodeID)

/-- Loop body of Go `HotspotMigrationSelector.performMigration` for one
overloaded node paired with the current head of the underloaded list. -/
def performMigrationStep (h : HotspotMigrationState) (nodes : List PrefillNode)
    (underloaded : List NodeConcentration) (overloaded : NodeConcentration) :
    HotspotMigrationState × List PrefillNode × List NodeConcentration :=
  match underloaded with
  | [] => (h, nodes, underloaded)
  | u0 :: _ =>
    match findNodeByID overloaded.nodeId nodes with
    | none => (h, nodes, underloaded)
    | some si =>
      match nodes[si]?, findNodeByID u0.nodeId nodes with
      | some srcNode, some ti =>
        let blocksToMigrate := selectBlocksForMigration srcNode (2 / 10)
        match nodes[ti]? with
        | some tgtNode =>
          if blocksToMigrate ≠ [] then
            let pr := migrateBlocks srcNode tgtNode blocksToMigrate
            let nodes1 := (nodes.set si pr.fst).set ti pr.snd
            let record : HMigrationRecord :=
              { requestId := h.requestCounter, sourceNode := srcNode.id,
                targetNode := tgtNode.id, migratedBlocks := blocksToMigrate,
                reasonRatio := overloaded.concentrationRatio,
                reasonThreshold := h.migrationThreshold }
            let h1 := { h with migrationHistory := h.migrationHistory ++ [record] }
            (h1, nodes1,
              if 1 < underloaded.length then underloaded.drop 1 else underloaded)
          else
            (h, nodes, if 1 < underloaded.length then underloaded.drop 1 else underloaded)
        | none => (h, nodes, if 1 < underloaded.length then underloaded.drop 1 else underloaded)
      | _, _ => (h, nodes, if 1 < underloaded.length then underloaded.drop 1 else underloaded)

/-- Go `HotspotMigrationSelector.performMigration`: overloaded nodes in
descending concentration order each migrate 20% of their coldest blocks to
the least-loaded remaining underloaded node. -/
def performMigration (h : HotspotMigrationState)
    (overloaded underloaded : List NodeConcentration) (nodes : List PrefillNode) :
    HotspotMigrationState × List PrefillNode :=
  let sortedOver := sortByLt (fun a b => decide (b.concentrationRatio < a.concentrationRatio)) overloaded
  let sortedUnder := sortByLt (fun a b => decide (a.concentrationRatio < b.concentrationRatio)) underloaded
  let r := sortedOver.foldl
    (fun acc ov =>
      match acc with
      | (h0, nodes0, under0) =>
        if under0 = [] then (h0, nodes0, under0)
        else performMigrationStep h0 nodes0 under0 ov)
    (h, nodes, sortedUnder)
  (r.fst, r.snd.fst)

/-- Go `HotspotMigrationSelector.checkAndMigrateHotspots`. -/
def checkAndMigrateHotspots (h : HotspotMigrationState) (nodes : List PrefillNode) :
    HotspotMigrationState × List PrefillNode :=
  let concentrations := analyzeConcentration h nodes
  let overloaded := concentrations.filter (fun c => decide (c.concentrationRatio > h.migrationThreshold))
  let underloaded := concentrations.filter (fun c => decide (c.concentrationRatio < h.migrationThreshold / 2))
  if overloaded ≠ [] ∧ underloaded ≠ [] then performMigration h overloaded underloaded nodes
  else (h, nodes)

/-- Go `HotspotMigrationSelector.SelectNode`: bump the request counter,
run the periodic migration check, then pick the best node by
hotspot-aware score. -/
def hSelectNode (h : HotspotMigrationState) (req : Request) (nodes : List PrefillNode) :
    Option Nat × HotspotMigrationState × List PrefillNode :=
  if nodes.length = 0 then (none, h, nodes)
  else
    let h1 := { h with requestCounter := h.requestCounter + 1 }
    let step :=
      if Int.tmod h1.requestCounter h1.migrationInterval = 0 then
        checkAndMigrateHotspots h1 nodes
      else (h1, nodes)
    (selectNodeWithHotspotAwareness step.fst req step.snd, step.fst, step.snd)

/-- Go `PrefixAwareHotspotSelector` (`simulator.go`). -/
structure PrefixAwareState where
  alpha : ℚ
  beta : ℚ
  gamma : ℚ
  hotspotThreshold : ℚ
  timeWindowSize : Int
  maxPrefixLength : Int
  accessCounter : Int
deriving DecidableEq

/-- Descending prefix lengths `min(maxLen, |ids|), …, 2` iterated by the
prefix-aware selector's loops. -/
def prefixLens (maxLen : Int) (ids : List Int) : List Int :=
  let m := min maxLen (ids.length : Int)
  (List.range (m - 1).toNat).map (fun k => m - (k : Int))

/-- Go `PrefixAwareHotspotSelector.findBestPrefixNode`: the index of the
node holding the most blocks of the prefix, with the strict-maximum fold
starting from a nil incumbent and count 0. -/
def findBestPrefixNodeAux (pfx : List Int) :
    List PrefillNode → Nat → Option Nat × Int → Option Nat × Int
  | [], _, best => best
  | n :: rest, i, best =>
    if hitCountOn n pfx > best.snd then
      findBestPrefixNodeAux pfx rest (i + 1) (some i, hitCountOn n pfx)
    else findBestPrefixNodeAux pfx rest (i + 1) best

/-- Go `PrefixAwareHotspotSelector.findBestPrefixNode`. -/
def findBestPrefixNode (pfx : List Int) (nodes : List PrefillNode) : Option Nat × Int :=
  findBestPrefixNodeAux pfx nodes 0 (none, 0)

/-- Go `PrefixAwareHotspotSelector.calculateTrendSlope`: least-squares
slope over the hit history with x the sample index. -/
def calculateTrendSlope (hist : List Int) : ℚ :=
  if hist.length < 2 then 0
  else
    let n : ℚ := (hist.length : ℚ)
    let sums := hist.enum.foldl
      (fun acc p =>
        let x : ℚ := (p.fst : ℚ)
        let y : ℚ := (p.snd : ℚ)
        (acc.1 + x, acc.2.1 + y, acc.2.2.1 + x * y, acc.2.2.2 + x * x))
      ((0 : ℚ), (0 : ℚ), (0 : ℚ), (0 : ℚ))
    let sumX := sums.1
    let sumY := sums.2.1
    let sumXY := sums.2.2.1
    let sumX2 := sums.2.2.2
    let denominator := n * sumX2 - sumX * sumX
    if denominator = 0 then 0 else (n * sumXY - sumX * sumY) / denominator

/-- Go `PrefixAwareHotspotSelector.predictFutureHotspot`: weighted sum of
the trend, intensity and recent-activity indicators against the 0.6
threshold.  Integer divisions truncate as in Go. -/
def predictFutureHotspot (p : PrefixAwareState) (pat : PrefixPattern) : Bool :=
  let trendScore : ℚ :=
    if pat.trendSlope > 5 / 100 then 1 else if pat.trendSlope > 1 / 100 then 1 / 2 else 0
  let intensityRatio := pat.intensity / p.hotspotThreshold
  let intensityScore : ℚ :=
    if intensityRatio > 7 / 10 then 1
    else if intensityRatio > 5 / 10 then 7 / 10
    else if intensityRatio > 3 / 10 then 3 / 10
    else 0
  let frequencyScore : ℚ :=
    if 3 ≤ pat.hitHistory.length then
      let recentHits := pat.hitHistory.drop (pat.hitHistory.length - 3)
      let avgRecentHits := Int.tdiv (recentHits.foldl (· + ·) 0) (recentHits.length : Int)
      if avgRecentHits > Int.tdiv pat.hitCount 2 then 1
      else if avgRecentHits > Int.tdiv pat.hitCount 4 then 6 / 10
      else 0
    else 0
  let predictionScore := trendScore * (4 / 10) + intensityScore * (4 / 10) + frequencyScore * (2 / 10)
  decide (predictionScore > 6 / 10)

/-- Go `PrefixAwareHotspotSelector.updatePredictiveAnalysis`: roll the
20-sample hit history, recompute the trend slope once five samples exist,
and refresh the predicted-hot flag. -/
def updatePredictiveAnalysis (p : PrefixAwareState) (pat : PrefixPattern) : PrefixPattern :=
  let hist0 := if 20 ≤ pat.hitHistory.length then pat.hitHistory.drop 1 else pat.hitHistory
  let hist1 := hist0 ++ [pat.hitCount]
  let slope := if 5 ≤ hist1.length then calculateTrendSlope hist1 else pat.trendSlope
  let pat1 := { pat with hitHistory := hist1, trendSlope := slope }
  { pat1 with predictedHot := predictFutureHotspot p pat1 }

/-- Go `PrefixAwareHotspotSelector.isHotspot`. -/
def isHotspotPat (p : PrefixAwareState) (pat : PrefixPattern) : Bool :=
  decide (pat.intensity > p.hotspotThreshold)

/-- Go `PrefixAwareHotspotSelector.calculateDynamicReplicationFactor`. -/
def calculateDynamicReplicationFactor (pat : PrefixPattern) (nNodes : Nat) : Int :=
  let additionalReplicas : Int :=
    if pat.intensity ≥ 5 / 10 then min ((nNodes : Int) - 1) 3
    else if pat.intensity ≥ 2 / 10 then min ((nNodes : Int) - 1) 2
    else if pat.intensity ≥ 1 / 10 then min ((nNodes : Int) - 1) 1
    else 0
  1 + additionalReplicas

/-- Go `PrefixAwareHotspotSelector.calculatePredictiveReplicationFactor`. -/
def calculatePredictiveReplicationFactor (pat : PrefixPattern) (nNodes : Nat) : Int :=
  let additionalReplicas : Int :=
    if pat.trendSlope ≥ 2 / 10 ∧ pat.intensity ≥ 5 / 100 then min ((nNodes : Int) - 1) 2
    else if pat.trendSlope ≥ 1 / 10 ∧ pat.intensity ≥ 3 / 100 then min ((nNodes : Int) - 1) 1
    else if pat.trendSlope ≥ 5 / 100 then min ((nNodes : Int) - 1) 1
    else 0
  1 + additionalReplicas

/-- Composite load `len(queue) + len(blocks)/MaxCacheSize` used by
`selectOptimalTargetNodes`. -/
def compositeLoad (n : PrefillNode) : ℚ :=
  (n.requestQueue.length : ℚ) + (n.cacheBlocks.length : ℚ) / (n.maxCacheSize : ℚ)

/-- Go `PrefixAwareHotspotSelector.selectOptimalTargetNodes`: the
`replicationFactor - 1` non-source nodes of lowest composite load (Go's
stable bubble sort is modeled by the stable insertion sort).  Returns node
indices. -/
def selectOptimalTargetNodes (srcId : String) (nodes : List PrefillNode)
    (replicationFactor : Int) : List Nat :=
  let candidates := (nodes.enum.filter (fun p => p.snd.id ≠ srcId))
  let targetCount := min (replicationFactor - 1) (candidates.length : Int)
  if targetCount ≤ 0 then []
  else
    let sorted := sortByLt (fun a b => decide (compositeLoad a.snd < compositeLoad b.snd)) candidates
    (sorted.take targetCount.toNat).map Prod.fst

/-- Inner copy step of Go
`PrefixAwareHotspotSelector.executeHotspotMigrationWithPrediction`: if the
source holds the block and the target has block-capacity room, store a
fresh copy (hit count 1, both sequence numbers freshly stamped from the
target's counter) and notify the target's eviction policy.  Returns the
target and the number of blocks copied (0 or 1). -/
def copyOnePrefixBlock (src : PrefillNode) (t : PrefillNode) (hashID : Int) :
    PrefillNode × Int :=
  match alookup src.cacheBlocks hashID with
  | none => (t, 0)
  | some b =>
    if (t.cacheBlocks.length : Int) < t.maxCacheSize then
      let nb : Block :=
        { hashID := b.hashID, size := b.size, hitCount := 1,
          accessSeq := t.seqCounter + 1, createSeq := t.seqCounter + 1, refCount := 0 }
      ({ t with
          cacheBlocks := aset t.cacheBlocks hashID nb,
          seqCounter := t.seqCounter + 1,
          evictionAlgo := onAddE t.evictionAlgo hashID }, 1)
    else (t, 0)

/-- Per-target copy loop of `executeHotspotMigrationWithPrediction`: copy
every block of the prefix the source still holds into the target. -/
def copyPrefixBlocks (src : PrefillNode) (t : PrefillNode) (pfx : List Int) :
    PrefillNode × Int :=
  pfx.foldl
    (fun acc hashID =>
      let r := copyOnePrefixBlock src acc.fst hashID
      (r.fst, acc.snd + r.snd))
    (t, 0)

/-- Update of one node's `HotspotMetrics` through its `Option`; a `none`
(nil) metrics record is left unchanged (the selector initializes all
metrics before use). -/
def withMetrics (n : PrefillNode) (f : HotspotMetrics → HotspotMetrics) : PrefillNode :=
  match n.hotspotMetrics with
  | none => n
  | some m => { n with hotspotMetrics := some (f m) }

/-- Go `PrefixAwareHotspotSelector.executeHotspotMigrationWithPrediction`:
choose the replication factor by migration reason, record it on the source
node, copy the prefix's blocks to each selected target, and append one
migration record per target once any block has been copied (the Go
`migratedCount` accumulates across targets). -/
def executeHotspotMigrationWithPrediction (p : PrefixAwareState) (prefixKey : List Int)
    (pat : PrefixPattern) (srcIdx : Nat) (nodes : List PrefillNode) (reason : String) :
    List PrefillNode :=
  match nodes[srcIdx]? with
  | none => nodes
  | some src0 =>
    let replicationFactor :=
      if reason = "predicted_hotspot" then
        calculatePredictiveReplicationFactor pat nodes.length
      else calculateDynamicReplicationFactor pat nodes.length
    let src1 := withMetrics src0
      (fun m => { m with replicationFactor := aset m.replicationFactor prefixKey replicationFactor })
    let nodes1 := nodes.set srcIdx src1
    let targets := selectOptimalTargetNodes src1.id nodes1 replicationFactor
    let r := targets.foldl
      (fun acc ti =>
        match acc.fst[ti]? with
        | none => acc
        | some tgt =>
          let cp := copyPrefixBlocks src1 tgt pat.pfx
          let migrated := acc.snd + cp.snd
          let nodes2 := acc.fst.set ti cp.fst
          if 0 < migrated then
            let record : MigrationRecord :=
              { prefixKey := prefixKey, fromNode := src1.id, toNode := tgt.id,
                timestamp := p.accessCounter, reasonKind := reason,
                reasonRF := replicationFactor, reasonTrend := pat.trendSlope,
                intensity := pat.intensity }
            let nodes3 := nodes2.set srcIdx
              (match nodes2[srcIdx]? with
               | none => src1
               | some s => withMetrics s
                  (fun m => { m with migrationHistory := m.migrationHistory ++ [record] }))
            (nodes3, migrated)
          else (nodes2, migrated))
      (nodes1, (0 : Int))
    r.fst

/-- One prefix length of Go
`PrefixAwareHotspotSelector.detectAndMigrateHotspots`: find the node
holding most of the prefix, refresh that node's pattern's predictive
analysis in place, and trigger replicating migration when the pattern is a
current or predicted hotspot. -/
def detectOneLen (p : PrefixAwareState) (req : Request) (nodes : List PrefillNode)
    (len : Int) : List PrefillNode :=
  let pfx := req.hashIDs.take len.toNat
  let best := findBestPrefixNode pfx nodes
  match best.fst with
  | none => nodes
  | some bi =>
    if best.snd = 0 then nodes
    else
      match nodes[bi]? with
      | none => nodes
      | some bn =>
        match bn.hotspotMetrics with
        | none => nodes
        | some m =>
          match alookup m.prefixPatterns pfx with
          | none => nodes
          | some pat =>
            let pat1 := updatePredictiveAnalysis p pat
            let m1 := { m with prefixPatterns := aset m.prefixPatterns pfx pat1 }
            let bn1 := { bn with hotspotMetrics := some m1 }
            let nodes1 := nodes.set bi bn1
            let isCurrentHotspot := isHotspotPat p pat1
            let isPredictedHotspot := pat1.predictedHot ∧ pat1.trendSlope > 1 / 10
            if isCurrentHotspot = true ∨ isPredictedHotspot then
              let reason :=
                if isPredictedHotspot ∧ isCurrentHotspot = false then "predicted_hotspot"
                else "current_hotspot"
              executeHotspotMigrationWithPrediction p pfx pat1 bi nodes1 reason
            else nodes1

/-- Go `PrefixAwareHotspotSelector.detectAndMigrateHotspots`. -/
def detectAndMigrateHotspots (p : PrefixAwareState) (req : Request)
    (nodes : List PrefillNode) : List PrefillNode :=
  (prefixLens p.maxPrefixLength req.hashIDs).foldl (detectOneLen p req) nodes

/-- Longest unbroken run of cached blocks from position 0, the inner loop
of Go `PrefixAwareHotspotSelector.calculatePrefixScore`. -/
def continuousRun (n : PrefillNode) : List Int → Int
  | [] => 0
  | hashID :: rest =>
    if (alookup n.cacheBlocks hashID).isSome then 1 + continuousRun n rest else 0

/-- Go `PrefixAwareHotspotSelector.calculatePrefixScore`. -/
def calculatePrefixScore (p : PrefixAwareState) (req : Request) (n : PrefillNode) : ℚ :=
  let maxScore := (prefixLens p.maxPrefixLength req.hashIDs).foldl
    (fun (acc : ℚ) (len : Int) =>
      let pfx := req.hashIDs.take len.toNat
      let score := ((continuousRun n pfx : ℚ) / (len : ℚ)) * (len : ℚ)
      if score > acc then score else acc)
    0
  maxScore / (p.maxPrefixLength : ℚ)

/-- Final score of Go
`PrefixAwareHotspotSelector.selectBestNodeWithPrefixAwareness`. -/
def prefixAwareScore (p : PrefixAwareState) (req : Request) (n : PrefillNode) : ℚ :=
  let cacheScore := (hitCountOn n req.hashIDs : ℚ) / (req.hashIDs.length : ℚ)
  let prefixScore := calculatePrefixScore p req n
  let loadScore := 1 / (1 + loadOf n)
  p.alpha * cacheScore + p.gamma * prefixScore + p.beta * loadScore

/-- Go `PrefixAwareHotspotSelector.selectBestNodeWithPrefixAwareness`. -/
def selectBestNodeWithPrefixAwareness (p : PrefixAwareState) (req : Request)
    (nodes : List PrefillNode) : Option Nat :=
  selectByScore (prefixAwareScore p req) nodes

/-- Go `PrefixAwareHotspotSelector.updatePrefixPatterns`: create or update
the pattern of every candidate prefix length on the selected node. -/
def updatePrefixPatternsOneLen (p : PrefixAwareState) (req : Request)
    (n : PrefillNode) (len : Int) : PrefillNode :=
  let pfx := req.hashIDs.take len.toNat
  withMetrics n (fun m =>
    let pat0 :=
      match alookup m.prefixPatterns pfx with
      | some q => q
      | none =>
        { pfx := pfx, hitCount := 0, nodeDist := [], lastHit := 0, intensity := 0,
          hitHistory := [], trendSlope := 0, predictedHot := false }
    let pat1 := { pat0 with
      hitCount := pat0.hitCount + 1,
      lastHit := p.accessCounter,
      nodeDist := aset pat0.nodeDist n.id ((alookup pat0.nodeDist n.id).getD 0 + 1) }
    let windowStart := max 0 (p.accessCounter - p.timeWindowSize)
    let pat2 :=
      if windowStart ≤ pat1.lastHit then
        { pat1 with intensity := (pat1.hitCount : ℚ) / ((p.accessCounter - windowStart + 1 : Int) : ℚ) }
      else pat1
    { m with prefixPatterns := aset m.prefixPatterns pfx pat2 })

/-- Go `PrefixAwareHotspotSelector.updatePrefixPatterns`. -/
def updatePrefixPatterns (p : PrefixAwareState) (req : Request) (selIdx : Nat)
    (nodes : List PrefillNode) : List PrefillNode :=
  match nodes[selIdx]? with
  | none => nodes
  | some n =>
    nodes.set selIdx
      ((prefixLens p.maxPrefixLength req.hashIDs).foldl (updatePrefixPatternsOneLen p req) n)

/-- Empty `HotspotMetrics` attached lazily by the selector. -/
def freshMetrics (threshold : ℚ) : HotspotMetrics :=
  { prefixPatterns := [], hotspotThreshold := threshold,
    replicationFactor := [], migrationHistory := [] }

/-- Go `PrefixAwareHotspotSelector.SelectNode`: bump the access counter,
lazily attach metrics, run hotspot detection and migration, pick the best
node, and record the request's prefix patterns on it. -/
def paSelectNode (p : PrefixAwareState) (req : Request) (nodes : List PrefillNode) :
    Option Nat × PrefixAwareState × List PrefillNode :=
  if nodes.length = 0 then (none, p, nodes)
  else
    let p1 := { p with accessCounter := p.accessCounter + 1 }
    let nodes1 := nodes.map (fun n =>
      match n.hotspotMetrics with
      | none => { n with hotspotMetrics := some (freshMetrics p1.hotspotThreshold) }
      | some _ => n)
    let nodes2 := detectAndMigrateHotspots p1 req nodes1
    match selectBestNodeWithPrefixAwareness p1 req nodes2 with
    | none => (none, p1, nodes2)
    | some i => (some i, p1, updatePrefixPatterns p1 req i nodes2)

theorem alookup_cons {κ α : Type} [DecidableEq κ] (a : κ) (b : α) (rest : List (κ × α))
    (key : κ) :
    alookup ((a, b) :: rest) key = if key = a then some b else alookup rest key := rfl

theorem aerase_cons {κ α : Type} [DecidableEq κ] (a : κ) (b : α) (rest : List (κ × α))
    (key : κ) :
    aerase ((a, b) :: rest) key = if key = a then rest else (a, b) :: aerase rest key := rfl

theorem akeys_cons {κ α : Type} (a : κ) (b : α) (rest : List (κ × α)) :
    akeys ((a, b) :: rest) = a :: akeys rest := rfl

theorem mem_akeys {κ α : Type} {m : List (κ × α)} {k : κ} :
    k ∈ akeys m ↔ ∃ v, (k, v) ∈ m := by
  simp only [akeys, List.mem_map]
  constructor
  · rintro ⟨⟨a, b⟩, hm, rfl⟩; exact ⟨b, hm⟩
  · rintro ⟨v, hv⟩; exact ⟨(k, v), hv, rfl⟩

theorem alookup_isSome_iff {κ α : Type} [DecidableEq κ] {m : List (κ × α)} {k : κ} :
    (alookup m k).isSome = true ↔ k ∈ akeys m := by
  induction m with
  | nil => simp [alookup, akeys]
  | cons p rest ih =>
    obtain ⟨a, b⟩ := p
    by_cases h : k = a
    · subst h; simp [alookup, akeys]
    · simp [alookup, akeys, h, ih, mem_akeys]

theorem alookup_eq_none_iff {κ α : Type} [DecidableEq κ] {m : List (κ × α)} {k : κ} :
    alookup m k = none ↔ k ∉ akeys m := by
  rw [← alookup_isSome_iff]
  cases alookup m k <;> simp

theorem mem_of_alookup_eq_some {κ α : Type} [DecidableEq κ] {m : List (κ × α)} {k : κ}
    {v : α} (h : alookup m k = some v) : (k, v) ∈ m := by
  induction m with
  | nil => simp [alookup] at h
  | cons p rest ih =>
    obtain ⟨a, b⟩ := p
    by_cases hk : k = a
    · subst hk
      rw [alookup_cons, if_pos rfl] at h
      injection h with h
      subst h; exact List.mem_cons_self _ _
    · rw [alookup_cons, if_neg hk] at h
      exact List.mem_cons_of_mem _ (ih h)

theorem aerase_of_not_mem {κ α : Type} [DecidableEq κ] {m : List (κ × α)} {k : κ}
    (h : k ∉ akeys m) : aerase m k = m := by
  induction m with
  | nil => rfl
  | cons p rest ih =>
    obtain ⟨a, b⟩ := p
    simp only [akeys_cons, List.mem_cons] at h
    push_neg at h
    rw [aerase_cons, if_neg h.1, ih h.2]

theorem akeys_aerase {κ α : Type} [DecidableEq κ] (m : List (κ × α)) (k : κ) :
    akeys (aerase m k) = (akeys m).erase k := by
  induction m with
  | nil => rfl
  | cons p rest ih =>
    obtain ⟨a, b⟩ := p
    by_cases h : k = a
    · subst h
      rw [aerase_cons, if_pos rfl, akeys_cons, List.erase_cons_head]
    · rw [aerase_cons, if_neg h, akeys_cons, akeys_cons,
        List.erase_cons_tail, ih]
      simpa using fun hc => h hc.symm

theorem mem_aerase_subset {κ α : Type} [DecidableEq κ] {m : List (κ × α)} {k : κ}
    {p : κ × α} (h : p ∈ aerase m k) : p ∈ m := by
  induction m with
  | nil => simp [aerase] at h
  | cons q rest ih =>
    obtain ⟨a, b⟩ := q
    by_cases hk : k = a
    · subst hk
      rw [aerase_cons, if_pos rfl] at h
      exact List.mem_cons_of_mem _ h
    · rw [aerase_cons, if_neg hk] at h
      rcases List.mem_cons.mp h with h | h
      · exact h ▸ List.mem_cons_self _ _
      · exact List.mem_cons_of_mem _ (ih h)

theorem mem_aerase_fst_ne {κ α : Type} [DecidableEq κ] {m : List (κ × α)} {k : κ}
    {p : κ × α} (hn : (akeys m).Nodup) (h : p ∈ aerase m k) : p.fst ≠ k := by
  induction m with
  | nil => simp [aerase] at h
  | cons q rest ih =>
    obtain ⟨a, b⟩ := q
    simp only [akeys_cons, List.nodup_cons] at hn
    by_cases hk : k = a
    · subst hk
      rw [aerase_cons, if_pos rfl] at h
      intro hfst
      exact hn.1 (hfst ▸ mem_akeys.mpr ⟨p.snd, by simpa using h⟩)
    · rw [aerase_cons, if_neg hk] at h
      rcases List.mem_cons.mp h with h | h
      · subst h; exact fun hc => hk (hc ▸ rfl)
      · exact ih hn.2 h

theorem length_aerase_of_mem {κ α : Type} [DecidableEq κ] {m : List (κ × α)} {k : κ}
    (h : k ∈ akeys m) : (aerase m k).length = m.length - 1 := by
  induction m with
  | nil => simp [akeys] at h
  | cons p rest ih =>
    obtain ⟨a, b⟩ := p
    by_cases hk : k = a
    · subst hk
      rw [aerase_cons, if_pos rfl]
      simp
    · simp only [akeys_cons, List.mem_cons] at h
      rcases h with h | h
      · exact absurd h hk
      · have hr : k ∈ akeys rest := h
        have hne : rest.length ≠ 0 := by
          intro h0
          rw [List.length_eq_zero] at h0
          subst h0; simp [akeys] at hr
        rw [aerase_cons, if_neg hk]
        simp only [List.length_cons, ih hr]
        omega

theorem nodup_akeys_aerase {κ α : Type} [DecidableEq κ] {m : List (κ × α)} {k : κ}
    (h : (akeys m).Nodup) : (akeys (aerase m k)).Nodup := by
  rw [akeys_aerase]; exact h.erase k

theorem akeys_aset {κ α : Type} [DecidableEq κ] (m : List (κ × α)) (k : κ) (v : α) :
    akeys (aset m k v) = k :: (akeys m).erase k := by
  show k :: akeys (aerase m k) = k :: (akeys m).erase k
  rw [akeys_aerase]

theorem nodup_akeys_aset {κ α : Type} [DecidableEq κ] {m : List (κ × α)} {k : κ} {v : α}
    (h : (akeys m).Nodup) : (akeys (aset m k v)).Nodup := by
  rw [akeys_aset]
  exact List.nodup_cons.mpr ⟨fun hc => (List.Nodup.mem_erase_iff h).mp hc |>.1 rfl, h.erase k⟩

theorem alookup_aset_self {κ α : Type} [DecidableEq κ] (m : List (κ × α)) (k : κ) (v : α) :
    alookup (aset m k v) k = some v := by
  simp [aset, alookup]

theorem alookup_aset_ne {κ α : Type} [DecidableEq κ] (m : List (κ × α)) (k : κ) (v : α)
    {k' : κ} (h : k' ≠ k) : alookup (aset m k v) k' = alookup m k' := by
  show alookup ((k, v) :: aerase m k) k' = alookup m k'
  rw [alookup_cons, if_neg h]
  induction m with
  | nil => rfl
  | cons p rest ih =>
    obtain ⟨a, b⟩ := p
    by_cases hk : k = a
    · subst hk
      rw [aerase_cons, if_pos rfl, alookup_cons, if_neg h]
    · by_cases hk' : k' = a
      · subst hk'
        rw [aerase_cons, if_neg hk, alookup_cons, alookup_cons, if_pos rfl, if_pos rfl]
      · rw [aerase_cons, if_neg hk, alookup_cons, alookup_cons, if_neg hk', if_neg hk', ih]

theorem mem_aset_cases {κ α : Type} [DecidableEq κ] {m : List (κ × α)} {k : κ} {v : α}
    {p : κ × α} (h : p ∈ aset m k v) : p = (k, v) ∨ p ∈ aerase m k := by
  simpa [aset] using h

theorem minsert_of_not_mem {l : List Int} {x : Int} (h : x ∉ l) : minsert l x = x :: l := by
  simp [minsert, h]

/-- Internal well-formedness of the LFU structure: unique tracked keys,
buckets only hold tracked IDs filed under their exact frequency, bucket
lists are duplicate-free, `blockNodes` is exactly the tracked key set,
and frequencies are at least 1. -/
structure LFUWf (st : LFUState) : Prop where
  keysNodup : (akeys st.blockFreq).Nodup
  groupsKeysNodup : (akeys st.freqGroups).Nodup
  sound : ∀ p ∈ st.freqGroups, ∀ id ∈ p.snd, alookup st.blockFreq id = some p.fst
  groupNodup : ∀ p ∈ st.freqGroups, p.snd.Nodup
  nodesNodup : st.blockNodes.Nodup
  nodesSub : ∀ id ∈ st.blockNodes, id ∈ akeys st.blockFreq
  keysSubNodes : ∀ id ∈ akeys st.blockFreq, id ∈ st.blockNodes
  freqPos : ∀ p ∈ st.blockFreq, 1 ≤ p.snd

theorem LFUWf.mem_groupOf_sound {st : LFUState} (wf : LFUWf st) {f id : Int}
    (h : id ∈ groupOf st.freqGroups f) : alookup st.blockFreq id = some f := by
  unfold groupOf at h
  cases hl : alookup st.freqGroups f with
  | none => rw [hl] at h; simp at h
  | some l =>
    rw [hl] at h
    exact wf.sound (f, l) (mem_of_alookup_eq_some hl) id h

theorem LFUWf.groupOf_nodup {st : LFUState} (wf : LFUWf st) (f : Int) :
    (groupOf st.freqGroups f).Nodup := by
  unfold groupOf
  cases hl : alookup st.freqGroups f with
  | none => simp
  | some l => exact wf.groupNodup (f, l) (mem_of_alookup_eq_some hl)

theorem groupOf_aset_self (gs : List (Int × List Int)) (f : Int) (l : List Int) :
    groupOf (aset gs f l) f = l := by
  unfold groupOf; rw [alookup_aset_self]; rfl

theorem groupOf_aset_ne (gs : List (Int × List Int)) (f : Int) (l : List Int)
    {f' : Int} (h : f' ≠ f) : groupOf (aset gs f l) f' = groupOf gs f' := by
  unfold groupOf; rw [alookup_aset_ne _ _ _ h]

theorem LFUWf.not_mem_group_of_lookup_ne {st : LFUState} (wf : LFUWf st) {f id : Int}
    (h : alookup st.blockFreq id ≠ some f) : id ∉ groupOf st.freqGroups f :=
  fun hc => h (wf.mem_groupOf_sound hc)

theorem mem_akeys_of_lookup_some {κ α : Type} [DecidableEq κ] {m : List (κ × α)} {k : κ}
    {v : α} (h : alookup m k = some v) : k ∈ akeys m :=
  alookup_isSome_iff.mp (by rw [h]; rfl)

/-- Go `LFUEviction.OnAdd` keeps the structure well-formed and prepends
the fresh ID to the tracked key set. -/
theorem lfuOnAdd_spec {st : LFUState} {id : Int} (wf : LFUWf st)
    (hid : id ∉ akeys st.blockFreq) :
    LFUWf (lfuOnAdd st id) ∧ akeys (lfuOnAdd st id).blockFreq = id :: akeys st.blockFreq := by
  have e1 : (lfuOnAdd st id).blockFreq = aset st.blockFreq id 1 := rfl
  have e2 : (lfuOnAdd st id).freqGroups =
      aset st.freqGroups 1 (groupOf st.freqGroups 1 ++ [id]) := rfl
  have e3 : (lfuOnAdd st id).blockNodes = minsert st.blockNodes id := rfl
  have hkeys : akeys (aset st.blockFreq id 1) = id :: akeys st.blockFreq := by
    rw [akeys_aset, List.erase_of_not_mem hid]
  have hnotNodes : id ∉ st.blockNodes := fun hc => hid (wf.nodesSub id hc)
  have hnotGroup : ∀ f, id ∉ groupOf st.freqGroups f := fun f hc =>
    hid (mem_akeys_of_lookup_some (wf.mem_groupOf_sound hc))
  refine ⟨⟨?_, ?_, ?_, ?_, ?_, ?_, ?_, ?_⟩, by rw [e1, hkeys]⟩
  · rw [e1, hkeys]; exact List.nodup_cons.mpr ⟨hid, wf.keysNodup⟩
  · rw [e2]; exact nodup_akeys_aset wf.groupsKeysNodup
  · rw [e1, e2]
    intro p hp x hx
    rcases mem_aset_cases hp with hp | hp
    · subst hp
      simp only at hx
      rcases List.mem_append.mp hx with hx | hx
      · have hs := wf.mem_groupOf_sound hx
        have hne : x ≠ id := fun hc => hid (hc ▸ mem_akeys_of_lookup_some hs)
        rw [alookup_aset_ne _ _ _ hne, hs]
      · simp only [List.mem_singleton] at hx
        subst hx; rw [alookup_aset_self]
    · have hmem := mem_aerase_subset hp
      have hs := wf.sound p hmem x hx
      have hne : x ≠ id := fun hc2 => hid (hc2 ▸ mem_akeys_of_lookup_some hs)
      rw [alookup_aset_ne _ _ _ hne]
      exact hs
  · rw [e2]
    intro p hp
    rcases mem_aset_cases hp with hp | hp
    · subst hp
      refine List.nodup_append.mpr ⟨wf.groupOf_nodup 1, List.nodup_singleton id, ?_⟩
      intro x hx hx1
      simp only [List.mem_singleton] at hx1
      exact hnotGroup 1 (hx1 ▸ hx)
    · exact wf.groupNodup p (mem_aerase_subset hp)
  · rw [e3, minsert_of_not_mem hnotNodes]
    exact List.nodup_cons.mpr ⟨hnotNodes, wf.nodesNodup⟩
  · rw [e3, minsert_of_not_mem hnotNodes, e1, hkeys]
    intro x hx
    rcases List.mem_cons.mp hx with hx | hx
    · exact hx ▸ List.mem_cons_self _ _
    · exact List.mem_cons_of_mem _ (wf.nodesSub x hx)
  · rw [e3, minsert_of_not_mem hnotNodes, e1, hkeys]
    intro x hx
    rcases List.mem_cons.mp hx with hx | hx
    · exact hx ▸ List.mem_cons_self _ _
    · exact List.mem_cons_of_mem _ (wf.keysSubNodes x hx)
  · rw [e1]
    intro p hp
    rcases mem_aset_cases hp with hp | hp
    · subst hp; exact le_refl 1
    · exact wf.freqPos p (mem_aerase_subset hp)

theorem lfuOnAccess_eval {st : LFUState} {id f : Int} (hf : alookup st.blockFreq id = some f)
    (hfpos : 1 ≤ f) (hidbn : id ∈ st.blockNodes) :
    (lfuOnAccess st id).blockFreq = aset st.blockFreq id (f + 1) ∧
    (lfuOnAccess st id).freqGroups =
      aset (aset st.freqGroups f ((groupOf st.freqGroups f).erase id)) (f + 1)
        (groupOf (aset st.freqGroups f ((groupOf st.freqGroups f).erase id)) (f + 1) ++ [id]) ∧
    (lfuOnAccess st id).blockNodes = minsert (st.blockNodes.erase id) id := by
  unfold lfuOnAccess
  rw [hf]
  simp only [Option.getD_some]
  rw [if_pos (show (0 : Int) < f from lt_of_lt_of_le zero_lt_one hfpos)]
  unfold removeFromFreqGroup
  rw [if_pos hidbn]
  unfold addToFreqGroup
  refine ⟨?_, ?_, ?_⟩
  · split <;> rfl
  · split <;> rfl
  · split <;> rfl

/-- Go `LFUEviction.UpdateOnAccess` keeps the structure well-formed and
permutes (in fact preserves, as a set) the tracked key set. -/
theorem lfuOnAccess_spec {st : LFUState} {id : Int} (wf : LFUWf st)
    (hid : id ∈ akeys st.blockFreq) :
    LFUWf (lfuOnAccess st id) ∧
      (akeys (lfuOnAccess st id).blockFreq).Perm (akeys st.blockFreq) := by
  have hsome : (alookup st.blockFreq id).isSome := alookup_isSome_iff.mpr hid
  obtain ⟨f, hf⟩ := Option.isSome_iff_exists.mp hsome
  have hmemf : (id, f) ∈ st.blockFreq := mem_of_alookup_eq_some hf
  have hfpos : 1 ≤ f := wf.freqPos (id, f) hmemf
  have hidbn : id ∈ st.blockNodes := wf.keysSubNodes id hid
  obtain ⟨P1, P2, P3⟩ := lfuOnAccess_eval hf hfpos hidbn
  have hninerase : id ∉ st.blockNodes.erase id := fun hc =>
    ((wf.nodesNodup.mem_erase_iff).mp hc).1 rfl
  rw [minsert_of_not_mem hninerase] at P3
  have hkeys : akeys (aset st.blockFreq id (f + 1)) = id :: (akeys st.blockFreq).erase id :=
    akeys_aset _ _ _
  have hne1 : (f : Int) + 1 ≠ f := by omega
  have hgs1nodup : (akeys (aset st.freqGroups f ((groupOf st.freqGroups f).erase id))).Nodup :=
    nodup_akeys_aset wf.groupsKeysNodup
  have hg1 : groupOf (aset st.freqGroups f ((groupOf st.freqGroups f).erase id)) (f + 1) =
      groupOf st.freqGroups (f + 1) := groupOf_aset_ne _ _ _ hne1
  have hidg1 : id ∉ groupOf st.freqGroups (f + 1) := fun hc => by
    have := wf.mem_groupOf_sound hc
    rw [hf] at this
    exact hne1 (Option.some.injEq _ _ ▸ (by injection this with h; omega))
  constructor
  · refine ⟨?_, ?_, ?_, ?_, ?_, ?_, ?_, ?_⟩
    · rw [P1, hkeys]
      exact List.nodup_cons.mpr
        ⟨fun hc => ((wf.keysNodup.mem_erase_iff).mp hc).1 rfl, wf.keysNodup.erase id⟩
    · rw [P2]; exact nodup_akeys_aset hgs1nodup
    · rw [P1, P2]
      intro p hp x hx
      rcases mem_aset_cases hp with hp | hp
      · subst hp
        simp only at hx
        rw [hg1] at hx
        rcases List.mem_append.mp hx with hx | hx
        · have hs := wf.mem_groupOf_sound hx
          have hxne : x ≠ id := by
            intro hc; subst hc; rw [hf] at hs
            injection hs with h; omega
          rw [alookup_aset_ne _ _ _ hxne, hs]
        · simp only [List.mem_singleton] at hx
          subst hx; rw [alookup_aset_self]
      · have hpfst : p.fst ≠ f + 1 := mem_aerase_fst_ne hgs1nodup hp
        have hp1 := mem_aerase_subset hp
        rcases mem_aset_cases hp1 with hp1 | hp1
        · subst hp1
          simp only at hx ⊢
          have hxid : x ≠ id ∧ x ∈ groupOf st.freqGroups f :=
            (wf.groupOf_nodup f).mem_erase_iff.mp hx
          have hs := wf.mem_groupOf_sound hxid.2
          rw [alookup_aset_ne _ _ _ hxid.1, hs]
        · have hpf : p.fst ≠ f := mem_aerase_fst_ne wf.groupsKeysNodup hp1
          have hpg := mem_aerase_subset hp1
          have hs := wf.sound p hpg x hx
          have hxne : x ≠ id := by
            intro hc; subst hc; rw [hf] at hs
            injection hs with h; exact hpf h.symm
          rw [alookup_aset_ne _ _ _ hxne, hs]
    · rw [P2]
      intro p hp
      rcases mem_aset_cases hp with hp | hp
      · subst hp
        simp only
        rw [hg1]
        refine List.nodup_append.mpr ⟨wf.groupOf_nodup (f + 1), List.nodup_singleton id, ?_⟩
        intro x hx hx1
        simp only [List.mem_singleton] at hx1
        exact hidg1 (hx1 ▸ hx)
      · have hp1 := mem_aerase_subset hp
        rcases mem_aset_cases hp1 with hp1 | hp1
        · subst hp1; exact (wf.groupOf_nodup f).erase id
        · exact wf.groupNodup p (mem_aerase_subset hp1)
    · rw [P3]
      exact List.nodup_cons.mpr ⟨hninerase, wf.nodesNodup.erase id⟩
    · rw [P1, P3, hkeys]
      intro x hx
      rcases List.mem_cons.mp hx with hx | hx
      · exact hx ▸ List.mem_cons_self _ _
      · have hxx := (wf.nodesNodup.mem_erase_iff).mp hx
        exact List.mem_cons_of_mem _
          ((wf.keysNodup.mem_erase_iff).mpr ⟨hxx.1, wf.nodesSub x hxx.2⟩)
    · rw [P1, P3, hkeys]
      intro x hx
      rcases List.mem_cons.mp hx with hx | hx
      · exact hx ▸ List.mem_cons_self _ _
      · have hxx := (wf.keysNodup.mem_erase_iff).mp hx
        exact List.mem_cons_of_mem _
          ((wf.nodesNodup.mem_erase_iff).mpr ⟨hxx.1, wf.keysSubNodes x hxx.2⟩)
    · rw [P1]
      intro p hp
      rcases mem_aset_cases hp with hp | hp
      · subst hp; simp only; omega
      · exact wf.freqPos p (mem_aerase_subset hp)
  · rw [P1, hkeys]
    exact (List.perm_cons_erase hid).symm

theorem alookup_aerase_ne {κ α : Type} [DecidableEq κ] {m : List (κ × α)} {k k' : κ}
    (h : k' ≠ k) : alookup (aerase m k) k' = alookup m k' := by
  induction m with
  | nil => rfl
  | cons p rest ih =>
    obtain ⟨a, b⟩ := p
    by_cases hk : k = a
    · subst hk
      rw [aerase_cons, if_pos rfl, alookup_cons, if_neg h]
    · by_cases hk' : k' = a
      · subst hk'
        rw [aerase_cons, if_neg hk, alookup_cons, alookup_cons, if_pos rfl, if_pos rfl]
      · rw [aerase_cons, if_neg hk, alookup_cons, alookup_cons, if_neg hk', if_neg hk', ih]

theorem lfuWf_set_minFreq {st : LFUState} (wf : LFUWf st) (v : Int) :
    LFUWf { st with minFreq := v } :=
  ⟨wf.keysNodup, wf.groupsKeysNodup, wf.sound, wf.groupNodup, wf.nodesNodup,
   wf.nodesSub, wf.keysSubNodes, wf.freqPos⟩

/-- Go `LFUEviction.removeBlock` on an ID that is filed under frequency
`f` in a well-formed structure: the ID leaves the key set and
well-formedness is preserved. -/
theorem lfuRemoveBlock_spec {st : LFUState} {id : Int} (wf : LFUWf st)
    (hid : id ∈ akeys st.blockFreq) :
    akeys (lfuRemoveBlock st id).blockFreq = (akeys st.blockFreq).erase id ∧
      LFUWf (lfuRemoveBlock st id) := by
  have hsome : (alookup st.blockFreq id).isSome := alookup_isSome_iff.mpr hid
  obtain ⟨f, hf⟩ := Option.isSome_iff_exists.mp hsome
  have hidbn : id ∈ st.blockNodes := wf.keysSubNodes id hid
  have E : lfuRemoveBlock st id =
      { st with
        freqGroups := aset st.freqGroups f ((groupOf st.freqGroups f).erase id),
        blockNodes := st.blockNodes.erase id,
        blockFreq := aerase st.blockFreq id } := by
    unfold lfuRemoveBlock removeFromFreqGroup
    rw [hf]
    simp only [Option.getD_some]
    rw [if_pos hidbn]
  rw [E]
  refine ⟨by simp only; rw [akeys_aerase], ?_⟩
  refine ⟨?_, ?_, ?_, ?_, ?_, ?_, ?_, ?_⟩
  · simp only; rw [akeys_aerase]; exact wf.keysNodup.erase id
  · exact nodup_akeys_aset wf.groupsKeysNodup
  · intro p hp x hx
    simp only at hp hx ⊢
    rcases mem_aset_cases hp with hp | hp
    · subst hp
      simp only at hx
      have hxx := (wf.groupOf_nodup f).mem_erase_iff.mp hx
      have hs := wf.mem_groupOf_sound hxx.2
      rw [alookup_aerase_ne hxx.1, hs]
    · have hpf : p.fst ≠ f := mem_aerase_fst_ne wf.groupsKeysNodup hp
      have hpg := mem_aerase_subset hp
      have hs := wf.sound p hpg x hx
      have hxne : x ≠ id := by
        intro hc; subst hc; rw [hf] at hs
        injection hs with h; exact hpf h.symm
      rw [alookup_aerase_ne hxne, hs]
  · intro p hp
    simp only at hp
    rcases mem_aset_cases hp with hp | hp
    · subst hp; exact (wf.groupOf_nodup f).erase id
    · exact wf.groupNodup p (mem_aerase_subset hp)
  · exact wf.nodesNodup.erase id
  · intro x hx
    simp only at hx ⊢
    rw [akeys_aerase]
    have hxx := (wf.nodesNodup.mem_erase_iff).mp hx
    exact (wf.keysNodup.mem_erase_iff).mpr ⟨hxx.1, wf.nodesSub x hxx.2⟩
  · intro x hx
    simp only at hx ⊢
    rw [akeys_aerase] at hx
    have hxx := (wf.keysNodup.mem_erase_iff).mp hx
    exact (wf.nodesNodup.mem_erase_iff).mpr ⟨hxx.1, wf.keysSubNodes x hxx.2⟩
  · intro p hp
    simp only at hp
    exact wf.freqPos p (mem_aerase_subset hp)

/-- Go `LFUEviction.Evict` on a well-formed structure either returns the
`-1` sentinel leaving the tracked key set unchanged, or returns a tracked
ID and removes exactly it; well-formedness is preserved. -/
theorem lfuEvict_spec {st : LFUState} (wf : LFUWf st) :
    ((lfuEvict st).fst = -1 ∧ (lfuEvict st).snd.blockFreq = st.blockFreq ∧
      LFUWf (lfuEvict st).snd) ∨
    ((lfuEvict st).fst ∈ akeys st.blockFreq ∧
      akeys (lfuEvict st).snd.blockFreq = (akeys st.blockFreq).erase (lfuEvict st).fst ∧
      LFUWf (lfuEvict st).snd) := by
  unfold lfuEvict
  by_cases hbf : st.blockFreq = []
  · rw [if_pos hbf]; exact Or.inl ⟨rfl, rfl, wf⟩
  · rw [if_neg hbf]
    set st1 := if groupOf st.freqGroups st.minFreq = [] then lfuUpdateMinFreq st else st
      with hst1def
    have hbf1 : st1.blockFreq = st.blockFreq := by
      rw [hst1def]; split <;> rfl
    have hgs1 : st1.freqGroups = st.freqGroups := by
      rw [hst1def]; split <;> rfl
    have hwf1 : LFUWf st1 := by
      rw [hst1def]; split
      · exact lfuWf_set_minFreq wf _
      · exact wf
    cases hmatch : groupOf st1.freqGroups st1.minFreq with
    | nil =>
      simp only [hmatch]
      refine Or.inl ⟨?_, hbf1, hwf1⟩
      trivial
    | cons h t =>
      simp only [hmatch]
      have hmem : h ∈ groupOf st1.freqGroups st1.minFreq := by rw [hmatch]; exact List.mem_cons_self _ _
      have hs := hwf1.mem_groupOf_sound hmem
      have hkey : h ∈ akeys st1.blockFreq := mem_akeys_of_lookup_some hs
      obtain ⟨hk, hw⟩ := lfuRemoveBlock_spec hwf1 hkey
      rw [hbf1] at hkey hk
      exact Or.inr ⟨hkey, hk, hw⟩

/-- Well-formedness of a policy state: duplicate-free order lists for
FIFO/LRU, internal coherence for LFU. -/
def AuxWf : EvictionState → Prop
  | .fifo order => order.Nodup
  | .lru order => order.Nodup
  | .lfu st => LFUWf st

theorem AuxWf.nodupIds {e : EvictionState} (wf : AuxWf e) : (auxIds e).Nodup := by
  cases e with
  | fifo order => exact wf
  | lru order => exact wf
  | lfu st => exact (wf : LFUWf st).keysNodup

/-- Go `OnAdd` of a fresh ID: well-formedness is preserved and the ID
joins the tracked set. -/
theorem onAddE_spec {e : EvictionState} {id : Int} (wf : AuxWf e)
    (hid : id ∉ auxIds e) :
    AuxWf (onAddE e id) ∧ (auxIds (onAddE e id)).Perm (id :: auxIds e) := by
  cases e with
  | fifo order =>
    refine ⟨?_, List.perm_append_singleton id order⟩
    exact List.nodup_append.mpr
      ⟨wf, List.nodup_singleton id,
       fun x hx hx1 => hid ((List.mem_singleton.mp hx1) ▸ hx)⟩
  | lru order =>
    exact ⟨List.nodup_cons.mpr ⟨hid, wf⟩, List.Perm.refl _⟩
  | lfu st =>
    obtain ⟨hw, hk⟩ := lfuOnAdd_spec (wf : LFUWf st) hid
    refine ⟨hw, ?_⟩
    rw [show auxIds (onAddE (.lfu st) id) = akeys (lfuOnAdd st id).blockFreq from rfl, hk]
    exact List.Perm.refl _

/-- Go `UpdateOnAccess` of a tracked ID: well-formedness is preserved and
the tracked set is unchanged up to permutation. -/
theorem onAccessE_spec {e : EvictionState} {id : Int} (wf : AuxWf e)
    (hid : id ∈ auxIds e) :
    AuxWf (onAccessE e id) ∧ (auxIds (onAccessE e id)).Perm (auxIds e) := by
  cases e with
  | fifo order => exact ⟨wf, List.Perm.refl _⟩
  | lru order =>
    have hid' : id ∈ order := hid
    have hred : onAccessE (.lru order) id = .lru (id :: order.erase id) := by
      show (.lru (if id ∈ order then id :: order.erase id else order) : EvictionState) = _
      rw [if_pos hid']
    rw [hred]
    constructor
    · exact List.nodup_cons.mpr
        ⟨fun hc => ((wf : order.Nodup).mem_erase_iff.mp hc).1 rfl, (wf : order.Nodup).erase id⟩
    · exact (List.perm_cons_erase hid).symm
  | lfu st => exact lfuOnAccess_spec (wf : LFUWf st) hid

/-- Go `Evict` on a well-formed policy state: either the `-1` sentinel
with the tracked set unchanged, or a tracked ID which is removed exactly;
well-formedness is preserved. -/
theorem evictE_spec {e : EvictionState} (wf : AuxWf e) :
    ((evictE e).fst = -1 ∧ auxIds (evictE e).snd = auxIds e ∧ AuxWf (evictE e).snd) ∨
    ((evictE e).fst ∈ auxIds e ∧
      auxIds (evictE e).snd = (auxIds e).erase (evictE e).fst ∧ AuxWf (evictE e).snd) := by
  cases e with
  | fifo order =>
    cases order with
    | nil => exact Or.inl ⟨rfl, rfl, wf⟩
    | cons h t =>
      refine Or.inr ⟨List.mem_cons_self _ _, ?_, (List.nodup_cons.mp wf).2⟩
      show t = (h :: t).erase h
      rw [List.erase_cons_head]
  | lru order =>
    cases hl : order.getLast? with
    | none =>
      rw [List.getLast?_eq_none_iff] at hl
      subst hl
      exact Or.inl ⟨rfl, rfl, wf⟩
    | some b =>
      have hsplit : order.dropLast ++ [b] = order := List.dropLast_append_getLast? b hl
      have hbmem : b ∈ order := by
        rw [← hsplit]
        exact List.mem_append.mpr (Or.inr (List.mem_singleton.mpr rfl))
      have hh : (order.dropLast ++ [b]).Nodup := by rw [hsplit]; exact wf
      have hbnotdrop : b ∉ order.dropLast := by
        obtain ⟨-, -, hd⟩ := List.nodup_append.mp hh
        exact fun hc => hd hc (List.mem_singleton.mpr rfl)
      have herase : order.erase b = order.dropLast := by
        conv_lhs => rw [← hsplit]
        rw [List.erase_append_right _ hbnotdrop, List.erase_cons_head]
        simp
      have hwf' : order.dropLast.Nodup := (List.nodup_append.mp hh).1
      show _ ∨ ((evictE (.lru order)).fst ∈ order ∧ _ ∧ _)
      have he : evictE (.lru order) = (b, .lru order.dropLast) := by
        show (match order.getLast? with
          | none => (-1, EvictionState.lru order)
          | some blockID => (blockID, .lru order.dropLast)) = _
        rw [hl]
      rw [he]
      exact Or.inr ⟨hbmem, herase.symm, hwf'⟩
  | lfu st =>
    rcases lfuEvict_spec (wf : LFUWf st) with ⟨h1, h2, h3⟩ | ⟨h1, h2, h3⟩
    · refine Or.inl ⟨h1, ?_, h3⟩
      show akeys (lfuEvict st).snd.blockFreq = akeys st.blockFreq
      rw [h2]
    · exact Or.inr ⟨h1, h2, h3⟩

/-- The spec's mirror invariant between a node's block map and its
eviction policy's auxiliary structures: unique keys on both sides and the
same membership. -/
def MirrorInv (n : PrefillNode) : Prop :=
  (akeys n.cacheBlocks).Nodup ∧ AuxWf n.evictionAlgo ∧
  (∀ id ∈ akeys n.cacheBlocks, id ∈ auxIds n.evictionAlgo) ∧
  (∀ id ∈ auxIds n.evictionAlgo, id ∈ akeys n.cacheBlocks)

/-- Memory accounting consistency: used memory is the per-block cost times
the number of cached blocks (true of every node the processor builds). -/
def MemConsistent (n : PrefillNode) : Prop :=
  n.usedMemoryMB = (n.cacheBlocks.length : ℚ) * blockMemoryMB

theorem blockMemoryMB_pos : 0 < blockMemoryMB := by norm_num [blockMemoryMB]

theorem blockMemoryMB_le_one : blockMemoryMB ≤ 1 := by norm_num [blockMemoryMB]

theorem MirrorInv.keysPerm {n : PrefillNode} (h : MirrorInv n) :
    (akeys n.cacheBlocks).Perm (auxIds n.evictionAlgo) :=
  (List.perm_ext_iff_of_nodup h.1 h.2.1.nodupIds).mpr
    (fun a => ⟨fun ha => h.2.2.1 a ha, fun ha => h.2.2.2 a ha⟩)

theorem MirrorInv.lengths {n : PrefillNode} (h : MirrorInv n) :
    (akeys n.cacheBlocks).length = (auxIds n.evictionAlgo).length :=
  h.keysPerm.length_eq

theorem length_akeys {κ α : Type} (m : List (κ × α)) : (akeys m).length = m.length :=
  List.length_map _ _

/-- The eviction loop of the processor preserves the mirror invariant and
memory-accounting consistency, never increases used memory, only removes
cached blocks, and, with at least one fuel step from a state within its
memory bound, ends with the exhaustion flag set or with room for one more
block. -/
theorem evictLoopAux_spec :
    ∀ (fuel : Nat) (n : PrefillNode) (ev : Int), MirrorInv n →
    -1 ∉ akeys n.cacheBlocks →
    MirrorInv (evictLoopAux fuel n ev).fst ∧
    (evictLoopAux fuel n ev).fst.maxMemoryMB = n.maxMemoryMB ∧
    (evictLoopAux fuel n ev).fst.usedMemoryMB ≤ n.usedMemoryMB ∧
    (∀ id ∈ akeys (evictLoopAux fuel n ev).fst.cacheBlocks, id ∈ akeys n.cacheBlocks) ∧
    (MemConsistent n → MemConsistent (evictLoopAux fuel n ev).fst) ∧
    (MemConsistent n → n.usedMemoryMB ≤ (n.maxMemoryMB : ℚ) → 1 ≤ n.maxMemoryMB →
      ((evictLoopAux fuel n ev).snd.snd = true ∨
        blockMemoryMB ≤
          ((evictLoopAux fuel n ev).fst.maxMemoryMB : ℚ) -
            (evictLoopAux fuel n ev).fst.usedMemoryMB ∨
        fuel = 0) ∧
      (evictLoopAux fuel n ev).fst.usedMemoryMB ≤ ((evictLoopAux fuel n ev).fst.maxMemoryMB : ℚ)) := by
  intro fuel
  induction fuel with
  | zero =>
    intro n ev hm _
    exact ⟨hm, rfl, le_refl _, fun id h => h, fun h => h, fun _ hu _ => ⟨Or.inr (Or.inr rfl), hu⟩⟩
  | succ fuel ih =>
    intro n ev hm hsent
    show MirrorInv (evictLoopAux (fuel + 1) n ev).fst ∧ _
    rw [evictLoopAux]
    by_cases hcond : (n.maxMemoryMB : ℚ) - n.usedMemoryMB < blockMemoryMB ∧ 0 < n.cacheBlocks.length
    · rw [if_pos hcond]
      rcases evictE_spec hm.2.1 with ⟨hneg, hsame, hwf⟩ | ⟨hmem, herase, hwf⟩
      · rw [if_pos hneg]
        refine ⟨⟨hm.1, hwf, ?_, ?_⟩, rfl, le_refl _, fun id h => h, fun h => h, ?_⟩
        · intro id hid
          show id ∈ auxIds (evictE n.evictionAlgo).snd
          rw [hsame]
          exact hm.2.2.1 id hid
        · intro id hid
          have hid2 : id ∈ auxIds (evictE n.evictionAlgo).snd := hid
          rw [hsame] at hid2
          exact hm.2.2.2 id hid2
        · intro _ hu _
          exact ⟨Or.inl rfl, hu⟩
      · have hvne : (evictE n.evictionAlgo).fst ≠ -1 := fun hc =>
          hsent (hc ▸ hm.2.2.2 _ hmem)
        rw [if_neg hvne]
        have hvkeys : (evictE n.evictionAlgo).fst ∈ akeys n.cacheBlocks :=
          hm.2.2.2 _ hmem
        have hm' : MirrorInv
            { n with
              cacheBlocks := aerase n.cacheBlocks (evictE n.evictionAlgo).fst,
              usedMemoryMB := n.usedMemoryMB - blockMemoryMB,
              evictionAlgo := (evictE n.evictionAlgo).snd } := by
          refine ⟨?_, hwf, ?_, ?_⟩
          · show (akeys (aerase n.cacheBlocks (evictE n.evictionAlgo).fst)).Nodup
            exact nodup_akeys_aerase hm.1
          · intro id hid
            show id ∈ auxIds (evictE n.evictionAlgo).snd
            rw [herase]
            have hid2 : id ∈ (akeys n.cacheBlocks).erase (evictE n.evictionAlgo).fst := by
              rw [← akeys_aerase]; exact hid
            have hid3 := (hm.1.mem_erase_iff).mp hid2
            exact (hm.2.1.nodupIds.mem_erase_iff).mpr ⟨hid3.1, hm.2.2.1 id hid3.2⟩
          · intro id hid
            have hid2 : id ∈ (auxIds n.evictionAlgo).erase (evictE n.evictionAlgo).fst := by
              rw [← herase]; exact hid
            have hid3 := (hm.2.1.nodupIds.mem_erase_iff).mp hid2
            show id ∈ akeys (aerase n.cacheBlocks (evictE n.evictionAlgo).fst)
            rw [akeys_aerase]
            exact (hm.1.mem_erase_iff).mpr ⟨hid3.1, hm.2.2.2 id hid3.2⟩
        have hsent' : -1 ∉ akeys
            (aerase n.cacheBlocks (evictE n.evictionAlgo).fst) := by
          rw [akeys_aerase]
          intro hc
          exact hsent ((hm.1.mem_erase_iff).mp hc).2
        obtain ⟨I1, I2, I3, I4, I5, I6⟩ := ih _ (ev + 1) hm' hsent'
        have hmemcon : MemConsistent n → MemConsistent
            { n with
              cacheBlocks := aerase n.cacheBlocks (evictE n.evictionAlgo).fst,
              usedMemoryMB := n.usedMemoryMB - blockMemoryMB,
              evictionAlgo := (evictE n.evictionAlgo).snd } := by
          intro hc
          show n.usedMemoryMB - blockMemoryMB =
            ((aerase n.cacheBlocks (evictE n.evictionAlgo).fst).length : ℚ) * blockMemoryMB
          rw [length_aerase_of_mem hvkeys]
          have hpos : 1 ≤ n.cacheBlocks.length := hcond.2
          rw [hc]
          have hcast : ((n.cacheBlocks.length - 1 : Nat) : ℚ) = (n.cacheBlocks.length : ℚ) - 1 := by
            push_cast [hpos]
            ring
          rw [hcast]
          ring
        refine ⟨I1, I2, ?_, ?_, fun hc => I5 (hmemcon hc), ?_⟩
        · refine I3.trans ?_
          show n.usedMemoryMB - blockMemoryMB ≤ n.usedMemoryMB
          linarith [blockMemoryMB_pos]
        · intro id hid
          have h2 := I4 id hid
          have h3 : id ∈ (akeys n.cacheBlocks).erase (evictE n.evictionAlgo).fst := by
            rw [← akeys_aerase]; exact h2
          exact (hm.1.mem_erase_iff).mp h3 |>.2
        · intro hc hu hmax
          have hu' : n.usedMemoryMB - blockMemoryMB ≤ (n.maxMemoryMB : ℚ) := by
            linarith [blockMemoryMB_pos]
          obtain ⟨hex, hub⟩ := I6 (hmemcon hc) hu' hmax
          refine ⟨?_, hub⟩
          rcases hex with hex | hex | hex
          · exact Or.inl hex
          · exact Or.inr (Or.inl hex)
          · rw [hex]
            refine Or.inr (Or.inl ?_)
            show blockMemoryMB ≤ (n.maxMemoryMB : ℚ) - (n.usedMemoryMB - blockMemoryMB)
            linarith
    · rw [if_neg hcond]
      refine ⟨hm, rfl, le_refl _, fun id h => h, fun h => h, ?_⟩
      intro hc hu hmax
      refine ⟨Or.inr (Or.inl ?_), hu⟩
      rw [not_and_or, not_lt] at hcond
      rcases hcond with hcond | hcond
      · exact hcond
      · have hlen : n.cacheBlocks.length = 0 := by omega
        have hz : n.usedMemoryMB = 0 := by
          rw [hc, hlen]; norm_num
        show blockMemoryMB ≤ (n.maxMemoryMB : ℚ) - n.usedMemoryMB
        rw [hz]
        have hq : (1 : ℚ) ≤ (n.maxMemoryMB : ℚ) := by exact_mod_cast hmax
        linarith [blockMemoryMB_le_one]

theorem evictFuel_ne_zero (n : PrefillNode) : evictFuel n ≠ 0 := by
  unfold evictFuel; omega

/-- One step of the per-request block loop preserves the mirror invariant,
the absence of the sentinel key, the memory bound (unless the exhaustion
flag is raised), and memory-accounting consistency. -/
theorem processOneBlock_spec (acc : BlockAcc) (hashID : Int)
    (hm : MirrorInv acc.node) (hsent : -1 ∉ akeys acc.node.cacheBlocks)
    (hid : hashID ≠ -1) :
    MirrorInv (processOneBlock acc hashID).node ∧
    -1 ∉ akeys (processOneBlock acc hashID).node.cacheBlocks ∧
    (processOneBlock acc hashID).node.maxMemoryMB = acc.node.maxMemoryMB ∧
    (MemConsistent acc.node → MemConsistent (processOneBlock acc hashID).node) ∧
    (acc.exhausted = true → (processOneBlock acc hashID).exhausted = true) ∧
    (MemConsistent acc.node → acc.node.usedMemoryMB ≤ (acc.node.maxMemoryMB : ℚ) →
      1 ≤ acc.node.maxMemoryMB →
      ((processOneBlock acc hashID).exhausted = true ∨
        (processOneBlock acc hashID).node.usedMemoryMB ≤
          ((processOneBlock acc hashID).node.maxMemoryMB : ℚ))) := by
  unfold processOneBlock
  cases hl : alookup acc.node.cacheBlocks hashID with
  | some b =>
    have hkid : hashID ∈ akeys acc.node.cacheBlocks := mem_akeys_of_lookup_some hl
    have haux : hashID ∈ auxIds acc.node.evictionAlgo := hm.2.2.1 hashID hkid
    obtain ⟨hwf', hperm⟩ := onAccessE_spec hm.2.1 haux
    have hkeys' : akeys (aset acc.node.cacheBlocks hashID { b with hitCount := b.hitCount + 1 }) =
        hashID :: (akeys acc.node.cacheBlocks).erase hashID := akeys_aset _ _ _
    refine ⟨⟨?_, hwf', ?_, ?_⟩, ?_, rfl, ?_, fun h => h, ?_⟩
    · show (akeys (aset acc.node.cacheBlocks hashID _)).Nodup
      rw [hkeys']
      exact List.nodup_cons.mpr
        ⟨fun hc => (hm.1.mem_erase_iff.mp hc).1 rfl, hm.1.erase _⟩
    · intro id hid2
      have hid3 : id ∈ hashID :: (akeys acc.node.cacheBlocks).erase hashID := by
        rw [← hkeys']; exact hid2
      show id ∈ auxIds (onAccessE acc.node.evictionAlgo hashID)
      rw [hperm.mem_iff]
      rcases List.mem_cons.mp hid3 with h | h
      · exact h ▸ haux
      · exact hm.2.2.1 id (hm.1.mem_erase_iff.mp h).2
    · intro id hid2
      have hid3 : id ∈ auxIds (onAccessE acc.node.evictionAlgo hashID) := hid2
      rw [hperm.mem_iff] at hid3
      have hid4 := hm.2.2.2 id hid3
      show id ∈ akeys (aset acc.node.cacheBlocks hashID _)
      rw [hkeys']
      by_cases hc : id = hashID
      · exact hc ▸ List.mem_cons_self _ _
      · exact List.mem_cons_of_mem _ (hm.1.mem_erase_iff.mpr ⟨hc, hid4⟩)
    · show -1 ∉ akeys (aset acc.node.cacheBlocks hashID _)
      rw [hkeys']
      intro hc
      rcases List.mem_cons.mp hc with h | h
      · exact hid h.symm
      · exact hsent (hm.1.mem_erase_iff.mp h).2
    · intro hc
      show acc.node.usedMemoryMB =
        ((aset acc.node.cacheBlocks hashID _).length : ℚ) * blockMemoryMB
      have hlen : (aset acc.node.cacheBlocks hashID
          { b with hitCount := b.hitCount + 1 }).length = acc.node.cacheBlocks.length := by
        show (aerase acc.node.cacheBlocks hashID).length + 1 = _
        rw [length_aerase_of_mem hkid]
        have : 1 ≤ acc.node.cacheBlocks.length := by
          by_contra hz
          have : acc.node.cacheBlocks.length = 0 := by omega
          rw [List.length_eq_zero] at this
          rw [this] at hkid
          simp [akeys] at hkid
        omega
      rw [hlen]
      exact hc
    · intro _ hu _
      exact Or.inr hu
  | none =>
    have hnotkeys : hashID ∉ akeys acc.node.cacheBlocks := alookup_eq_none_iff.mp hl
    have hm0 : MirrorInv { acc.node with totalMisses := acc.node.totalMisses + 1 } := hm
    have hsent0 : -1 ∉ akeys ({ acc.node with totalMisses := acc.node.totalMisses + 1 } :
        PrefillNode).cacheBlocks := hsent
    obtain ⟨I1, I2, I3, I4, I5, I6⟩ :=
      evictLoopAux_spec (evictFuel { acc.node with totalMisses := acc.node.totalMisses + 1 })
        { acc.node with totalMisses := acc.node.totalMisses + 1 } 0 hm0 hsent0
    set r := evictLoopAux (evictFuel { acc.node with totalMisses := acc.node.totalMisses + 1 })
      { acc.node with totalMisses := acc.node.totalMisses + 1 } 0 with hr
    have hnotkeysr : hashID ∉ akeys r.fst.cacheBlocks := fun hc => hnotkeys (I4 hashID hc)
    have hnotaux : hashID ∉ auxIds r.fst.evictionAlgo := fun hc => hnotkeysr (I1.2.2.2 hashID hc)
    obtain ⟨hwf', hperm⟩ := onAddE_spec I1.2.1 hnotaux
    have hkeys' : ∀ nb : Block, akeys (aset r.fst.cacheBlocks hashID nb) =
        hashID :: akeys r.fst.cacheBlocks := by
      intro nb
      rw [akeys_aset, List.erase_of_not_mem hnotkeysr]
    refine ⟨⟨?_, hwf', ?_, ?_⟩, ?_, I2, ?_, ?_, ?_⟩
    · show (akeys (aset r.fst.cacheBlocks hashID _)).Nodup
      rw [hkeys']
      exact List.nodup_cons.mpr ⟨hnotkeysr, I1.1⟩
    · intro id hid2
      have hid3 : id ∈ hashID :: akeys r.fst.cacheBlocks := by rw [← hkeys']; exact hid2
      show id ∈ auxIds (onAddE r.fst.evictionAlgo hashID)
      rw [hperm.mem_iff]
      rcases List.mem_cons.mp hid3 with h | h
      · exact h ▸ List.mem_cons_self _ _
      · exact List.mem_cons_of_mem _ (I1.2.2.1 id h)
    · intro id hid2
      have hid3 : id ∈ auxIds (onAddE r.fst.evictionAlgo hashID) := hid2
      rw [hperm.mem_iff] at hid3
      show id ∈ akeys (aset r.fst.cacheBlocks hashID _)
      rw [hkeys']
      rcases List.mem_cons.mp hid3 with h | h
      · exact h ▸ List.mem_cons_self _ _
      · exact List.mem_cons_of_mem _ (I1.2.2.2 id h)
    · show -1 ∉ akeys (aset r.fst.cacheBlocks hashID _)
      rw [hkeys']
      intro hc
      rcases List.mem_cons.mp hc with h | h
      · exact hid h.symm
      · exact hsent (I4 (-1) h)
    · intro hc
      have hc' := I5 hc
      show r.fst.usedMemoryMB + blockMemoryMB =
        ((aset r.fst.cacheBlocks hashID _).length : ℚ) * blockMemoryMB
      have hlen : (aset r.fst.cacheBlocks hashID
          ({ hashID := hashID, size := 512, hitCount := 1,
             accessSeq := r.fst.seqCounter + 1, createSeq := r.fst.seqCounter + 1,
             refCount := 0 } : Block)).length = r.fst.cacheBlocks.length + 1 := by
        show (aerase r.fst.cacheBlocks hashID).length + 1 = _
        rw [aerase_of_not_mem hnotkeysr]
      rw [hlen, hc']
      push_cast
      ring
    · intro hex
      show (acc.exhausted || r.snd.snd) = true
      rw [hex]
      rfl
    · intro hc hu hmax
      obtain ⟨hex, hub⟩ := I6 hc hu hmax
      rcases hex with hex | hex | hex
      · refine Or.inl ?_
        show (acc.exhausted || r.snd.snd) = true
        rw [hex, Bool.or_true]
      · refine Or.inr ?_
        show r.fst.usedMemoryMB + blockMemoryMB ≤ (r.fst.maxMemoryMB : ℚ)
        linarith
      · exact absurd hex (evictFuel_ne_zero _)

/-- The whole per-request block loop preserves the mirror invariant, the
absence of the sentinel key, memory-accounting consistency, and the memory
bound unless the exhaustion flag was raised. -/
theorem processBlocksFold_spec :
    ∀ (ids : List Int) (acc : BlockAcc),
    MirrorInv acc.node → -1 ∉ akeys acc.node.cacheBlocks → (∀ id ∈ ids, id ≠ -1) →
    MirrorInv (ids.foldl processOneBlock acc).node ∧
    -1 ∉ akeys (ids.foldl processOneBlock acc).node.cacheBlocks ∧
    (ids.foldl processOneBlock acc).node.maxMemoryMB = acc.node.maxMemoryMB ∧
    (MemConsistent acc.node → MemConsistent (ids.foldl processOneBlock acc).node) ∧
    (acc.exhausted = true → (ids.foldl processOneBlock acc).exhausted = true) ∧
    (MemConsistent acc.node → 1 ≤ acc.node.maxMemoryMB →
      (acc.exhausted = false → acc.node.usedMemoryMB ≤ (acc.node.maxMemoryMB : ℚ)) →
      ((ids.foldl processOneBlock acc).exhausted = false →
        (ids.foldl processOneBlock acc).node.usedMemoryMB ≤
          ((ids.foldl processOneBlock acc).node.maxMemoryMB : ℚ))) := by
  intro ids
  induction ids with
  | nil =>
    intro acc hm hs _
    exact ⟨hm, hs, rfl, fun h => h, fun h => h, fun _ _ hc hf => hc hf⟩
  | cons id rest ih =>
    intro acc hm hs hids
    have hid : id ≠ -1 := hids id (List.mem_cons_self _ _)
    obtain ⟨S1, S2, S3, S4, S5, S6⟩ := processOneBlock_spec acc id hm hs hid
    have hrest : ∀ x ∈ rest, x ≠ -1 := fun x hx => hids x (List.mem_cons_of_mem _ hx)
    obtain ⟨I1, I2, I3, I4, I5, I6⟩ := ih (processOneBlock acc id) S1 S2 hrest
    refine ⟨I1, I2, I3.trans S3, fun hc => I4 (S4 hc), fun hf => I5 (S5 hf), ?_⟩
    intro hc hmax hcond
    refine I6 (S4 hc) (S3 ▸ hmax) ?_
    intro hfalse
    cases hacc : acc.exhausted with
    | true => exact absurd (S5 hacc) (by rw [hfalse]; exact Bool.false_ne_true)
    | false =>
      rcases S6 hc (hcond hacc) hmax with h | h
      · exact absurd h (by rw [hfalse]; exact Bool.false_ne_true)
      · rw [S3] at h ⊢
        exact h

/-- An all-hit block loop leaves the block map size, the miss counter and
the used memory unchanged, and adds exactly the number of IDs to the hit
counter. -/
theorem processBlocks_allHit :
    ∀ (ids : List Int) (acc : BlockAcc),
    (∀ id ∈ ids, (alookup acc.node.cacheBlocks id).isSome = true) →
    (ids.foldl processOneBlock acc).node.cacheBlocks.length = acc.node.cacheBlocks.length ∧
    (ids.foldl processOneBlock acc).node.totalHits = acc.node.totalHits + (ids.length : Int) ∧
    (ids.foldl processOneBlock acc).node.totalMisses = acc.node.totalMisses ∧
    (ids.foldl processOneBlock acc).node.usedMemoryMB = acc.node.usedMemoryMB ∧
    (∀ id, (alookup (ids.foldl processOneBlock acc).node.cacheBlocks id).isSome =
      (alookup acc.node.cacheBlocks id).isSome) := by
  intro ids
  induction ids with
  | nil =>
    intro acc _
    exact ⟨rfl, by simp, rfl, rfl, fun id => rfl⟩
  | cons id rest ih =>
    intro acc hall
    have hidsome : (alookup acc.node.cacheBlocks id).isSome = true :=
      hall id (List.mem_cons_self _ _)
    obtain ⟨b, hb⟩ := Option.isSome_iff_exists.mp hidsome
    have hkid : id ∈ akeys acc.node.cacheBlocks := mem_akeys_of_lookup_some hb
    have hstep : processOneBlock acc id =
        { acc with
          node := { acc.node with
            cacheBlocks := aset acc.node.cacheBlocks id { b with hitCount := b.hitCount + 1 },
            totalHits := acc.node.totalHits + 1,
            evictionAlgo := onAccessE acc.node.evictionAlgo id },
          hits := acc.hits + 1 } := by
      unfold processOneBlock
      rw [hb]
    have hlen : (aset acc.node.cacheBlocks id { b with hitCount := b.hitCount + 1 }).length =
        acc.node.cacheBlocks.length := by
      show (aerase acc.node.cacheBlocks id).length + 1 = _
      rw [length_aerase_of_mem hkid]
      have : 1 ≤ acc.node.cacheBlocks.length := by
        by_contra hz
        have h0 : acc.node.cacheBlocks.length = 0 := by omega
        rw [List.length_eq_zero] at h0
        rw [h0] at hkid
        simp [akeys] at hkid
      omega
    have hsome' : ∀ x, (alookup (aset acc.node.cacheBlocks id
        { b with hitCount := b.hitCount + 1 }) x).isSome =
        (alookup acc.node.cacheBlocks x).isSome := by
      intro x
      by_cases hx : x = id
      · subst hx
        rw [alookup_aset_self, hb]
        rfl
      · rw [alookup_aset_ne _ _ _ hx]
    have hall' : ∀ x ∈ rest,
        (alookup (processOneBlock acc id).node.cacheBlocks x).isSome = true := by
      intro x hx
      rw [hstep]
      show (alookup (aset acc.node.cacheBlocks id _) x).isSome = true
      rw [hsome' x]
      exact hall x (List.mem_cons_of_mem _ hx)
    obtain ⟨I1, I2, I3, I4, I5⟩ := ih (processOneBlock acc id) hall'
    rw [List.foldl_cons]
    refine ⟨?_, ?_, ?_, ?_, ?_⟩
    · rw [I1, hstep]
      exact hlen
    · rw [I2, hstep]
      show acc.node.totalHits + 1 + (rest.length : Int) =
        acc.node.totalHits + ((id :: rest).length : Int)
      simp only [List.length_cons]
      push_cast
      ring
    · rw [I3, hstep]
    · rw [I4, hstep]
    · intro x
      rw [I5 x, hstep]
      exact hsome' x

/-- Full characterization of the strict-maximum selection fold: the result
either is the incumbent or points into the remaining list; its score bounds
the incumbent's and every remaining score; a result other than the
incumbent strictly beats the incumbent; and every entry strictly before the
result scores strictly below it (the input-order tie-break). -/
theorem selectAux_spec (score : PrefillNode → ℚ) :
    ∀ (rest : List PrefillNode) (i bi : Nat) (bs : ℚ), bi < i →
    ((selectAux score rest i (bi, bs)) = (bi, bs) ∨
      ∃ j, ∃ hj : j < rest.length,
        (selectAux score rest i (bi, bs)).fst = i + j ∧
        (selectAux score rest i (bi, bs)).snd = score (rest.get ⟨j, hj⟩)) ∧
    bs ≤ (selectAux score rest i (bi, bs)).snd ∧
    (∀ j, ∀ hj : j < rest.length,
      score (rest.get ⟨j, hj⟩) ≤ (selectAux score rest i (bi, bs)).snd) ∧
    ((selectAux score rest i (bi, bs)).fst ≠ bi →
      bs < (selectAux score rest i (bi, bs)).snd) ∧
    (∀ j, ∀ hj : j < rest.length, i + j < (selectAux score rest i (bi, bs)).fst →
      score (rest.get ⟨j, hj⟩) < (selectAux score rest i (bi, bs)).snd) := by
  intro rest
  induction rest with
  | nil =>
    intro i bi bs _
    refine ⟨Or.inl rfl, le_refl _, ?_, ?_, ?_⟩
    · intro j hj; exact absurd hj (by simp)
    · intro hne; exact absurd rfl hne
    · intro j hj; exact absurd hj (by simp)
  | cons n rest ih =>
    intro i bi bs hbi
    show (selectAux score (n :: rest) i (bi, bs) = _ ∨ _) ∧ _
    rw [selectAux]
    by_cases hgt : score n > bs
    · rw [if_pos hgt]
      obtain ⟨C1, C2, C3, C4, C5⟩ := ih (i + 1) i (score n) (Nat.lt_succ_self i)
      refine ⟨?_, ?_, ?_, ?_, ?_⟩
      · rcases C1 with h | ⟨j, hj, h1, h2⟩
        · refine Or.inr ⟨0, by simp, ?_, ?_⟩
          · rw [h]; omega
          · rw [h]; rfl
        · refine Or.inr ⟨j + 1, by simpa using Nat.succ_lt_succ hj, ?_, ?_⟩
          · rw [h1]; omega
          · rw [h2]; rfl
      · exact le_of_lt (lt_of_lt_of_le hgt C2)
      · intro j hj
        cases j with
        | zero => exact C2
        | succ j => exact C3 j (Nat.lt_of_succ_lt_succ hj)
      · intro _; exact lt_of_lt_of_le hgt C2
      · intro j hj hlt
        cases j with
        | zero =>
          have hne : (selectAux score rest (i + 1) (i, score n)).fst ≠ i := by omega
          exact C4 hne
        | succ j =>
          exact C5 j (Nat.lt_of_succ_lt_succ hj) (by omega)
    · rw [if_neg hgt]
      obtain ⟨C1, C2, C3, C4, C5⟩ := ih (i + 1) bi bs (Nat.lt_succ_of_lt hbi)
      refine ⟨?_, C2, ?_, C4, ?_⟩
      · rcases C1 with h | ⟨j, hj, h1, h2⟩
        · exact Or.inl h
        · refine Or.inr ⟨j + 1, by simpa using Nat.succ_lt_succ hj, ?_, ?_⟩
          · rw [h1]; omega
          · rw [h2]; rfl
      · intro j hj
        cases j with
        | zero => exact le_trans (not_lt.mp hgt) C2
        | succ j => exact C3 j (Nat.lt_of_succ_lt_succ hj)
      · intro j hj hlt
        cases j with
        | zero =>
          have hne : (selectAux score rest (i + 1) (bi, bs)).fst ≠ bi := by omega
          exact lt_of_le_of_lt (not_lt.mp hgt) (C4 hne)
        | succ j =>
          exact C5 j (Nat.lt_of_succ_lt_succ hj) (by omega)

/-- The selection fold over a non-empty node list returns the index of the
first node attaining the maximal score. -/
theorem selectByScore_spec (score : PrefillNode → ℚ) (nodes : List PrefillNode)
    (hne : nodes ≠ []) :
    ∃ idx, selectByScore score nodes = some idx ∧
    ∃ hidx : idx < nodes.length,
      (∀ j, ∀ hj : j < nodes.length, score (nodes.get ⟨j, hj⟩) ≤ score (nodes.get ⟨idx, hidx⟩)) ∧
      (∀ j, ∀ hj : j < nodes.length, j < idx →
        score (nodes.get ⟨j, hj⟩) < score (nodes.get ⟨idx, hidx⟩)) := by
  cases nodes with
  | nil => exact absurd rfl hne
  | cons n0 rest =>
    obtain ⟨C1, C2, C3, C4, C5⟩ := selectAux_spec score rest 1 0 (score n0) Nat.one_pos
    refine ⟨(selectAux score rest 1 (0, score n0)).fst, rfl, ?_⟩
    have hval : ∃ hidx : (selectAux score rest 1 (0, score n0)).fst < (n0 :: rest).length,
        score ((n0 :: rest).get ⟨(selectAux score rest 1 (0, score n0)).fst, hidx⟩) =
          (selectAux score rest 1 (0, score n0)).snd := by
      rcases C1 with h | ⟨j, hj, h1, h2⟩
      · rw [h]
        exact ⟨by simp, rfl⟩
      · rw [Nat.add_comm] at h1
        rw [h1]
        refine ⟨by simp only [List.length_cons]; omega, ?_⟩
        rw [h2]
        rfl
    obtain ⟨hidx, hv⟩ := hval
    refine ⟨hidx, ?_, ?_⟩
    · intro j hj
      rw [hv]
      cases j with
      | zero => exact C2
      | succ j => exact C3 j (Nat.lt_of_succ_lt_succ hj)
    · intro j hj hlt
      rw [hv]
      cases j with
      | zero =>
        have hne0 : (selectAux score rest 1 (0, score n0)).fst ≠ 0 := by omega
        exact C4 hne0
      | succ j =>
        exact C5 j (Nat.lt_of_succ_lt_succ hj) (by omega)

theorem selectByScore_eq_none_iff (score : PrefillNode → ℚ) (nodes : List PrefillNode) :
    selectByScore score nodes = none ↔ nodes = [] := by
  cases nodes with
  | nil => simp [selectByScore]
  | cons n rest => simp [selectByScore]

theorem selectByScore_lt (score : PrefillNode → ℚ) {nodes : List PrefillNode} {idx : Nat}
    (h : selectByScore score nodes = some idx) : idx < nodes.length := by
  have hne : nodes ≠ [] := by
    intro hc; rw [hc] at h; simp [selectByScore] at h
  obtain ⟨idx2, h2, hidx2, -⟩ := selectByScore_spec score nodes hne
  rw [h] at h2
  injection h2 with h2
  rw [h2]
  exact hidx2

/-- Abstract operation alphabet of the spec's "finite sequence of `on_add`
and `on_access` operations" on an eviction policy. -/
inductive CacheOp where
  | add (id : Int)
  | access (id : Int)
deriving DecidableEq

/-- Application of one abstract operation to a policy state. -/
def applyOp (e : EvictionState) : CacheOp → EvictionState
  | .add id => onAddE e id
  | .access id => onAccessE e id

/-- Application of an operation sequence to a policy state. -/
def applyOps (e : EvictionState) (ops : List CacheOp) : EvictionState :=
  ops.foldl applyOp e

/-- Does the operation mention the given block ID? -/
def touches (op : CacheOp) (id : Int) : Bool :=
  match op with
  | .add x => x = id
  | .access x => x = id

/-- Index of the most recent operation touching the ID (its most recent
`on_access`, or its `on_add` if never accessed, in the spec's words). -/
def lastTouch : List CacheOp → Int → Option Nat
  | [], _ => none
  | op :: rest, id =>
    match lastTouch rest id with
    | some k => some (k + 1)
    | none => if touches op id then some 0 else none

/-- Block IDs added by the sequence (the resident set, for well-formed
sequences that add each ID at most once). -/
def addedIDs : List CacheOp → List Int
  | [] => []
  | .add id :: rest => id :: addedIDs rest
  | .access _ :: rest => addedIDs rest

/-- Well-formedness of an operation sequence from a given resident set:
`on_add` only for IDs not resident, `on_access` only for resident IDs —
exactly the call pattern the prefill processor produces. -/
def wfOpsFrom (resident : List Int) : List CacheOp → Bool
  | [] => true
  | .add id :: rest => decide (id ∉ resident) && wfOpsFrom (id :: resident) rest
  | .access id :: rest => decide (id ∈ resident) && wfOpsFrom resident rest

/-- Resident set after a sequence, starting from a given resident set. -/
def residentAfter (resident : List Int) : List CacheOp → List Int
  | [] => resident
  | .add id :: rest => residentAfter (id :: resident) rest
  | .access _ :: rest => residentAfter resident rest

theorem band_true_elim {a b : Bool} (h : (a && b) = true) : a = true ∧ b = true := by
  cases a <;> cases b <;> simp_all

theorem mem_residentAfter (ops : List CacheOp) :
    ∀ (resident : List Int) (x : Int),
    x ∈ residentAfter resident ops ↔ x ∈ addedIDs ops ∨ x ∈ resident := by
  induction ops with
  | nil => intro resident x; simp [residentAfter, addedIDs]
  | cons op rest ih =>
    intro resident x
    cases op with
    | add id =>
      show x ∈ residentAfter (id :: resident) rest ↔ x ∈ id :: addedIDs rest ∨ x ∈ resident
      rw [ih]
      simp [List.mem_cons]
      tauto
    | access id =>
      show x ∈ residentAfter resident rest ↔ _
      rw [ih]
      rfl

theorem wfOpsFrom_append (op : CacheOp) (ops : List CacheOp) :
    ∀ resident : List Int,
    wfOpsFrom resident (ops ++ [op]) = true ↔
      wfOpsFrom resident ops = true ∧
      (∀ id, op = .add id → id ∉ residentAfter resident ops) ∧
      (∀ id, op = .access id → id ∈ residentAfter resident ops) := by
  induction ops with
  | nil =>
    intro resident
    cases op with
    | add id =>
      show (decide (id ∉ resident) && true) = true ↔ _
      simp [wfOpsFrom, residentAfter]
    | access id =>
      show (decide (id ∈ resident) && true) = true ↔ _
      simp [wfOpsFrom, residentAfter]
  | cons q rest ih =>
    intro resident
    cases q with
    | add id =>
      show (decide (id ∉ resident) && wfOpsFrom (id :: resident) (rest ++ [op])) = true ↔
        ((decide (id ∉ resident) && wfOpsFrom (id :: resident) rest) = true ∧ _ ∧ _)
      rw [Bool.and_eq_true, Bool.and_eq_true, ih]
      tauto
    | access id =>
      show (decide (id ∈ resident) && wfOpsFrom resident (rest ++ [op])) = true ↔
        ((decide (id ∈ resident) && wfOpsFrom resident rest) = true ∧ _ ∧ _)
      rw [Bool.and_eq_true, Bool.and_eq_true, ih]
      tauto

theorem lastTouch_append (op : CacheOp) (id : Int) :
    ∀ ops : List CacheOp,
    lastTouch (ops ++ [op]) id =
      if touches op id then some ops.length else lastTouch ops id := by
  intro ops
  induction ops with
  | nil =>
    show (match lastTouch [] id with
      | some k => some (k + 1)
      | none => if touches op id then some 0 else none) = _
    show (if touches op id then some 0 else none) = _
    split <;> rfl
  | cons q rest ih =>
    show (match lastTouch (rest ++ [op]) id with
      | some k => some (k + 1)
      | none => if touches q id then some 0 else none) = _
    rw [ih]
    by_cases ht : touches op id
    · rw [if_pos ht, if_pos ht]
      rfl
    · rw [if_neg ht, if_neg ht]
      rfl

theorem lastTouch_lt_length (id : Int) :
    ∀ ops : List CacheOp, ∀ k, lastTouch ops id = some k → k < ops.length := by
  intro ops
  induction ops with
  | nil => intro k h; exact absurd h (by simp [lastTouch])
  | cons q rest ih =>
    intro k h
    show k < rest.length + 1
    unfold lastTouch at h
    cases hl : lastTouch rest id with
    | some m =>
      rw [hl] at h
      simp only [Option.some.injEq] at h
      have := ih m hl
      omega
    | none =>
      rw [hl] at h
      by_cases ht : touches q id
      · rw [if_pos ht] at h
        simp only [Option.some.injEq] at h
        omega
      · rw [if_neg ht] at h
        exact absurd h (by simp)

theorem addedIDs_append (op : CacheOp) :
    ∀ ops : List CacheOp,
    addedIDs (ops ++ [op]) =
      addedIDs ops ++ (match op with | .add id => [id] | .access _ => []) := by
  intro ops
  induction ops with
  | nil =>
    cases op with
    | add id => rfl
    | access id => rfl
  | cons q rest ih =>
    cases q with
    | add id2 =>
      show id2 :: addedIDs (rest ++ [op]) = (id2 :: addedIDs rest) ++ _
      rw [ih]
      rfl
    | access id2 =>
      show addedIDs (rest ++ [op]) = _
      rw [ih]
      rfl

/-- An ID never added by a well-formed sequence (starting from a resident
set not containing it) is never accessed by it either. -/
theorem accessCount_zero_of_not_added (id : Int) :
    ∀ (ops : List CacheOp) (resident : List Int),
    wfOpsFrom resident ops = true → id ∉ addedIDs ops → id ∉ resident →
    (ops.filter (fun op => op = .access id)).length = 0 := by
  intro ops
  induction ops with
  | nil => intro resident _ _ _; rfl
  | cons q rest ih =>
    intro resident hwf hadd hres
    cases q with
    | add id2 =>
      have hwf' : wfOpsFrom (id2 :: resident) rest = true :=
        (band_true_elim
          (show (decide (id2 ∉ resident) && wfOpsFrom (id2 :: resident) rest) = true
            from hwf)).2
      have hadd' : id ∉ addedIDs rest := fun hc =>
        hadd (List.mem_cons_of_mem _ hc)
      have hne : id ≠ id2 := fun hc => hadd (hc ▸ List.mem_cons_self _ _)
      have hres' : id ∉ id2 :: resident := by
        intro hc
        rcases List.mem_cons.mp hc with hc | hc
        · exact hne hc
        · exact hres hc
      have := ih (id2 :: resident) hwf' hadd' hres'
      show ((CacheOp.add id2 :: rest).filter (fun op => op = .access id)).length = 0
      rw [List.filter_cons]
      have hfalse : (decide (CacheOp.add id2 = CacheOp.access id)) = false := by simp
      simp only [hfalse, Bool.false_eq_true, if_false]
      exact this
    | access id2 =>
      have hsplit := band_true_elim
        (show (decide (id2 ∈ resident) && wfOpsFrom resident rest) = true from hwf)
      have hadd' : id ∉ addedIDs rest := hadd
      have hne : id2 ≠ id := by
        intro hc
        subst hc
        exact hres (of_decide_eq_true hsplit.1)
      have := ih resident hsplit.2 hadd' hres
      show ((CacheOp.access id2 :: rest).filter (fun op => op = .access id)).length = 0
      rw [List.filter_cons]
      have hfalse : (decide (CacheOp.access id2 = CacheOp.access id)) = false := by
        simp [hne]
      simp only [hfalse, Bool.false_eq_true, if_false]
      exact this

theorem lastTouch_isSome_of_added (x : Int) :
    ∀ ops : List CacheOp, x ∈ addedIDs ops → ∃ k, lastTouch ops x = some k := by
  intro ops
  induction ops with
  | nil => intro h; exact absurd h (by simp [addedIDs])
  | cons q rest ih =>
    intro h
    show ∃ k, (match lastTouch rest x with
      | some k => some (k + 1)
      | none => if touches q x then some 0 else none) = some k
    cases q with
    | add id =>
      rcases List.mem_cons.mp (show x ∈ id :: addedIDs rest from h) with hx | hx
      · cases hl : lastTouch rest x with
        | some k => exact ⟨k + 1, rfl⟩
        | none =>
          refine ⟨0, ?_⟩
          have ht : touches (.add id) x = true := by
            show decide (id = x) = true
            simp [hx]
          rw [ht]
          rfl
      · obtain ⟨k, hk⟩ := ih hx
        rw [hk]
        exact ⟨k + 1, rfl⟩
    | access id =>
      obtain ⟨k, hk⟩ := ih h
      rw [hk]
      exact ⟨k + 1, rfl⟩

/-- State characterization of the Go LRU under a well-formed operation
sequence: the order list holds exactly the added IDs, without duplicates,
sorted by strictly decreasing last-touch index. -/
theorem lru_invariant (ops : List CacheOp) (hwf : wfOpsFrom [] ops = true) :
    ∃ order : List Int,
      applyOps (.lru []) ops = .lru order ∧
      (∀ x, x ∈ order ↔ x ∈ addedIDs ops) ∧
      order.Nodup ∧
      List.Pairwise (fun a b => (lastTouch ops b).getD 0 < (lastTouch ops a).getD 0) order := by
  induction ops using List.reverseRecOn with
  | nil =>
    exact ⟨[], rfl, by simp [addedIDs], List.nodup_nil, List.Pairwise.nil⟩
  | append_singleton ops op ih =>
    obtain ⟨hwf0, hadd, hacc⟩ := (wfOpsFrom_append op ops []).mp hwf
    obtain ⟨order, heq, hmem, hnodup, hpair⟩ := ih hwf0
    have happly : applyOps (.lru []) (ops ++ [op]) = applyOp (.lru order) op := by
      unfold applyOps
      rw [List.foldl_append]
      show applyOp (applyOps (.lru []) ops) op = _
      rw [heq]
    have hmemlast : ∀ x ∈ order, ∃ k, lastTouch ops x = some k ∧ k < ops.length := by
      intro x hx
      obtain ⟨k, hk⟩ := lastTouch_isSome_of_added x ops ((hmem x).mp hx)
      exact ⟨k, hk, lastTouch_lt_length x ops k hk⟩
    cases op with
    | add id =>
      have hidfresh : id ∉ addedIDs ops := by
        intro hc
        exact hadd id rfl ((mem_residentAfter ops [] id).mpr (Or.inl hc))
      have hidorder : id ∉ order := fun hc => hidfresh ((hmem id).mp hc)
      have hts : touches (.add id) id = true := by
        show decide (id = id) = true
        simp
      have htne : ∀ x : Int, x ≠ id → touches (.add id) x = false := by
        intro x hx
        show decide (id = x) = false
        exact decide_eq_false (fun hc => hx hc.symm)
      refine ⟨id :: order, ?_, ?_, ?_, ?_⟩
      · rw [happly]
        rfl
      · intro x
        rw [addedIDs_append]
        simp only [List.mem_cons, List.mem_append, List.mem_singleton]
        rw [hmem x]
        tauto
      · exact List.nodup_cons.mpr ⟨hidorder, hnodup⟩
      · rw [List.pairwise_cons]
        constructor
        · intro x hx
          obtain ⟨k, hk, hklt⟩ := hmemlast x hx
          have hxne : x ≠ id := fun hc => hidorder (hc ▸ hx)
          rw [lastTouch_append (.add id) x ops, htne x hxne, if_neg (by simp), hk,
            lastTouch_append (.add id) id ops, hts, if_pos rfl]
          simpa using hklt
        · refine hpair.imp_of_mem ?_
          intro a b ha hb hr
          have hane : a ≠ id := fun hc => hidorder (hc ▸ ha)
          have hbne : b ≠ id := fun hc => hidorder (hc ▸ hb)
          rw [lastTouch_append (.add id) a ops, htne a hane, if_neg (by simp),
            lastTouch_append (.add id) b ops, htne b hbne, if_neg (by simp)]
          exact hr
    | access id =>
      have hidadded : id ∈ addedIDs ops := by
        have := hacc id rfl
        rcases (mem_residentAfter ops [] id).mp this with h | h
        · exact h
        · exact absurd h (by simp)
      have hidorder : id ∈ order := (hmem id).mpr hidadded
      have hts : touches (.access id) id = true := by
        show decide (id = id) = true
        simp
      have htne : ∀ x : Int, x ≠ id → touches (.access id) x = false := by
        intro x hx
        show decide (id = x) = false
        exact decide_eq_false (fun hc => hx hc.symm)
      have hred : applyOp (.lru order) (.access id) = .lru (id :: order.erase id) := by
        show onAccessE (.lru order) id = _
        show (.lru (if id ∈ order then id :: order.erase id else order) : EvictionState) = _
        rw [if_pos hidorder]
      refine ⟨id :: order.erase id, ?_, ?_, ?_, ?_⟩
      · rw [happly, hred]
      · intro x
        rw [addedIDs_append]
        simp only [List.mem_cons, List.mem_append]
        rw [← hmem x]
        constructor
        · rintro (hx | hx)
          · exact Or.inl (hx ▸ hidorder)
          · exact Or.inl ((hnodup.mem_erase_iff.mp hx).2)
        · rintro (hx | hx)
          · by_cases hxid : x = id
            · exact Or.inl hxid
            · exact Or.inr (hnodup.mem_erase_iff.mpr ⟨hxid, hx⟩)
          · exact absurd hx (by simp)
      · exact List.nodup_cons.mpr
          ⟨fun hc => (hnodup.mem_erase_iff.mp hc).1 rfl, hnodup.erase id⟩
      · rw [List.pairwise_cons]
        constructor
        · intro x hx
          have hxx := hnodup.mem_erase_iff.mp hx
          obtain ⟨k, hk, hklt⟩ := hmemlast x hxx.2
          rw [lastTouch_append (.access id) x ops, htne x hxx.1, if_neg (by simp), hk,
            lastTouch_append (.access id) id ops, hts, if_pos rfl]
          simpa using hklt
        · refine (hpair.sublist (List.erase_sublist id order)).imp_of_mem ?_
          intro a b ha hb hr
          have hane : a ≠ id := (hnodup.mem_erase_iff.mp ha).1
          have hbne : b ≠ id := (hnodup.mem_erase_iff.mp hb).1
          rw [lastTouch_append (.access id) a ops, htne a hane, if_neg (by simp),
            lastTouch_append (.access id) b ops, htne b hbne, if_neg (by simp)]
          exact hr

/-- Go `NewLFUEviction`. -/
def lfuEmpty : LFUState :=
  { freqGroups := [], blockFreq := [], blockNodes := [], minFreq := 1 }

/-- Number of `on_access` operations for the ID in the sequence. -/
def accessCount (ops : List CacheOp) (id : Int) : Nat :=
  (ops.filter (fun op => op = .access id)).length

/-- Access frequency the LFU structure assigns a block added once and then
accessed: 1 on insertion plus one per access. -/
def freqOf (ops : List CacheOp) (id : Int) : Int :=
  1 + (accessCount ops id : Int)

theorem one_le_freqOf (ops : List CacheOp) (id : Int) : 1 ≤ freqOf ops id := by
  unfold freqOf
  have : (0 : Int) ≤ (accessCount ops id : Int) := Int.ofNat_nonneg _
  omega

theorem accessCount_append (ops : List CacheOp) (op : CacheOp) (id : Int) :
    accessCount (ops ++ [op]) id =
      accessCount ops id + (if op = .access id then 1 else 0) := by
  unfold accessCount
  rw [List.filter_append, List.length_append]
  congr 1
  by_cases h : op = .access id
  · rw [if_pos h]
    simp [List.filter_cons, h]
  · rw [if_neg h]
    simp [List.filter_cons, h]

theorem freqOf_append_add (ops : List CacheOp) (id x : Int) :
    freqOf (ops ++ [.add id]) x = freqOf ops x := by
  unfold freqOf
  rw [accessCount_append]
  simp

theorem freqOf_append_access_self (ops : List CacheOp) (id : Int) :
    freqOf (ops ++ [.access id]) id = freqOf ops id + 1 := by
  unfold freqOf
  rw [accessCount_append]
  simp only [if_pos rfl]
  push_cast
  ring

theorem freqOf_append_access_ne (ops : List CacheOp) (id x : Int) (h : x ≠ id) :
    freqOf (ops ++ [.access id]) x = freqOf ops x := by
  unfold freqOf
  rw [accessCount_append,
    if_neg (show ¬ (CacheOp.access id = CacheOp.access x) from fun hc => by
      injection hc with hc
      exact h hc.symm)]
  simp

theorem lfuOnAccess_minFreq {st : LFUState} {id f : Int}
    (hf : alookup st.blockFreq id = some f)
    (hfpos : 1 ≤ f) (hidbn : id ∈ st.blockNodes) :
    (lfuOnAccess st id).minFreq =
      (if f = st.minFreq ∧
          groupOf (aset (aset st.freqGroups f ((groupOf st.freqGroups f).erase id)) (f + 1)
            (groupOf (aset st.freqGroups f ((groupOf st.freqGroups f).erase id)) (f + 1) ++ [id])) f = []
        then f + 1 else st.minFreq) := by
  unfold lfuOnAccess
  rw [hf]
  simp only [Option.getD_some]
  rw [if_pos (show (0 : Int) < f from lt_of_lt_of_le zero_lt_one hfpos)]
  unfold removeFromFreqGroup
  rw [if_pos hidbn]
  unfold addToFreqGroup
  simp only []
  split <;> rfl

/-- State characterization of the Go LFU under a well-formed operation
sequence: tracked keys are exactly the added IDs at their spec frequency,
each frequency bucket holds exactly the IDs of that frequency in strictly
increasing last-touch (bucket admission) order, and `minFreq` is a lower
bound on all frequencies whose bucket is non-empty whenever any block is
resident. -/
theorem lfu_invariant (ops : List CacheOp) (hwf : wfOpsFrom [] ops = true) :
    ∃ st : LFUState,
      applyOps (.lfu lfuEmpty) ops = .lfu st ∧
      LFUWf st ∧
      (∀ x, x ∈ akeys st.blockFreq ↔ x ∈ addedIDs ops) ∧
      (∀ x ∈ addedIDs ops, alookup st.blockFreq x = some (freqOf ops x)) ∧
      (∀ f : Int, ∀ x, x ∈ groupOf st.freqGroups f ↔ x ∈ addedIDs ops ∧ freqOf ops x = f) ∧
      (∀ f : Int, List.Pairwise (fun a b => (lastTouch ops a).getD 0 < (lastTouch ops b).getD 0)
        (groupOf st.freqGroups f)) ∧
      (∀ x ∈ addedIDs ops, st.minFreq ≤ freqOf ops x) ∧
      (addedIDs ops ≠ [] → groupOf st.freqGroups st.minFreq ≠ []) := by
  induction ops using List.reverseRecOn with
  | nil =>
    refine ⟨lfuEmpty, rfl, ?_, ?_, ?_, ?_, ?_, ?_, ?_⟩
    · exact ⟨List.nodup_nil, List.nodup_nil, by intro p hp; exact absurd hp (by simp [lfuEmpty]),
        by intro p hp; exact absurd hp (by simp [lfuEmpty]), List.nodup_nil,
        by intro x hx; exact absurd hx (by simp [lfuEmpty]),
        by intro x hx; exact absurd hx (by simp [lfuEmpty, akeys]),
        by intro p hp; exact absurd hp (by simp [lfuEmpty])⟩
    · intro x; simp [lfuEmpty, akeys, addedIDs]
    · intro x hx; exact absurd hx (by simp [addedIDs])
    · intro f x
      simp [lfuEmpty, groupOf, alookup, addedIDs]
    · intro f
      show List.Pairwise _ (groupOf [] f)
      simp [groupOf, alookup]
    · intro x hx; exact absurd hx (by simp [addedIDs])
    · intro h; exact absurd rfl h
  | append_singleton ops op ih =>
    obtain ⟨hwf0, haddc, haccc⟩ := (wfOpsFrom_append op ops []).mp hwf
    obtain ⟨st, heq, hwfst, hkeys, hfreq, hgroups, hgpair, hminle, hminat⟩ := ih hwf0
    have happly : applyOps (.lfu lfuEmpty) (ops ++ [op]) = applyOp (.lfu st) op := by
      unfold applyOps
      rw [List.foldl_append]
      show applyOp (applyOps (.lfu lfuEmpty) ops) op = _
      rw [heq]
    have hlastlt : ∀ x ∈ addedIDs ops, (lastTouch ops x).getD 0 < ops.length := by
      intro x hx
      obtain ⟨k, hk⟩ := lastTouch_isSome_of_added x ops hx
      rw [hk]
      exact lastTouch_lt_length x ops k hk
    cases op with
    | add id =>
      have hidfresh : id ∉ addedIDs ops := by
        intro hc
        exact haddc id rfl ((mem_residentAfter ops [] id).mpr (Or.inl hc))
      have hidkeys : id ∉ akeys st.blockFreq := fun hc => hidfresh ((hkeys id).mp hc)
      obtain ⟨hwf', hkeyseq⟩ := lfuOnAdd_spec hwfst hidkeys
      have hts : touches (.add id) id = true := by
        show decide (id = id) = true
        simp
      have htne : ∀ x : Int, x ≠ id → touches (.add id) x = false := by
        intro x hx
        show decide (id = x) = false
        exact decide_eq_false (fun hc => hx hc.symm)
      have hlast_ne : ∀ x : Int, x ≠ id →
          lastTouch (ops ++ [.add id]) x = lastTouch ops x := by
        intro x hx
        rw [lastTouch_append, htne x hx, if_neg (by simp)]
      have hlast_id : lastTouch (ops ++ [.add id]) id = some ops.length := by
        rw [lastTouch_append, hts, if_pos rfl]
      have hadded' : addedIDs (ops ++ [.add id]) = addedIDs ops ++ [id] := by
        rw [addedIDs_append]
      have hfreq'_id : freqOf (ops ++ [.add id]) id = 1 := by
        unfold freqOf
        rw [accessCount_append, if_neg (by simp)]
        have h0 : accessCount ops id = 0 :=
          accessCount_zero_of_not_added id ops [] hwf0 hidfresh (by simp)
        unfold accessCount at h0
        unfold accessCount
        rw [h0]
        simp
      have hP1 : (lfuOnAdd st id).blockFreq = aset st.blockFreq id 1 := rfl
      have hP2 : (lfuOnAdd st id).freqGroups =
          aset st.freqGroups 1 (groupOf st.freqGroups 1 ++ [id]) := rfl
      have hP4 : (lfuOnAdd st id).minFreq = 1 := rfl
      have hg1 : groupOf (lfuOnAdd st id).freqGroups 1 = groupOf st.freqGroups 1 ++ [id] := by
        rw [hP2, groupOf_aset_self]
      have hgother : ∀ g : Int, g ≠ 1 →
          groupOf (lfuOnAdd st id).freqGroups g = groupOf st.freqGroups g := by
        intro g hg
        rw [hP2, groupOf_aset_ne _ _ _ hg]
      have hnotgroup : ∀ g : Int, id ∉ groupOf st.freqGroups g := by
        intro g hc
        exact hidfresh ((hgroups g id).mp hc).1
      refine ⟨lfuOnAdd st id, by rw [happly]; rfl, hwf', ?_, ?_, ?_, ?_, ?_, ?_⟩
      · intro x
        rw [hkeyseq, hadded']
        simp only [List.mem_cons, List.mem_append, List.mem_singleton]
        rw [hkeys x]
        tauto
      · intro x hx
        rw [hadded'] at hx
        rcases List.mem_append.mp hx with hx | hx
        · have hxne : x ≠ id := fun hc => hidfresh (hc ▸ hx)
          rw [hP1, alookup_aset_ne _ _ _ hxne, hfreq x hx, freqOf_append_add]
        · have hxid : x = id := List.mem_singleton.mp hx
          subst hxid
          rw [hP1, alookup_aset_self, hfreq'_id]
      · intro f x
        rw [hadded']
        by_cases hf1 : f = 1
        · subst hf1
          rw [hg1]
          simp only [List.mem_append, List.mem_singleton]
          constructor
          · rintro (hx | hx)
            · obtain ⟨hxa, hxf⟩ := (hgroups 1 x).mp hx
              have hxne : x ≠ id := fun hc => hidfresh (hc ▸ hxa)
              exact ⟨Or.inl hxa, by rw [freqOf_append_add]; exact hxf⟩
            · subst hx
              exact ⟨Or.inr rfl, hfreq'_id⟩
          · rintro ⟨hxa | hxa, hxf⟩
            · have hxne : x ≠ id := fun hc => hidfresh (hc ▸ hxa)
              rw [freqOf_append_add] at hxf
              exact Or.inl ((hgroups 1 x).mpr ⟨hxa, hxf⟩)
            · exact Or.inr hxa
        · rw [hgother f hf1]
          simp only [List.mem_append, List.mem_singleton]
          constructor
          · intro hx
            obtain ⟨hxa, hxf⟩ := (hgroups f x).mp hx
            have hxne : x ≠ id := fun hc => hidfresh (hc ▸ hxa)
            exact ⟨Or.inl hxa, by rw [freqOf_append_add]; exact hxf⟩
          · rintro ⟨hxa | hxa, hxf⟩
            · rw [freqOf_append_add] at hxf
              exact (hgroups f x).mpr ⟨hxa, hxf⟩
            · subst hxa
              rw [hfreq'_id] at hxf
              exact absurd hxf.symm hf1
      · intro f
        by_cases hf1 : f = 1
        · subst hf1
          rw [hg1]
          rw [List.pairwise_append]
          refine ⟨?_, List.pairwise_singleton _ _, ?_⟩
          · refine (hgpair 1).imp_of_mem ?_
            intro a b ha hb hr
            have hane : a ≠ id := fun hc => hnotgroup 1 (hc ▸ ha)
            have hbne : b ≠ id := fun hc => hnotgroup 1 (hc ▸ hb)
            rw [hlast_ne a hane, hlast_ne b hbne]
            exact hr
          · intro a ha b hb
            have hane : a ≠ id := fun hc => hnotgroup 1 (hc ▸ ha)
            rw [List.mem_singleton.mp hb, hlast_ne a hane, hlast_id]
            exact hlastlt a ((hgroups 1 a).mp ha).1
        · rw [hgother f hf1]
          refine (hgpair f).imp_of_mem ?_
          intro a b ha hb hr
          have hane : a ≠ id := fun hc => hnotgroup f (hc ▸ ha)
          have hbne : b ≠ id := fun hc => hnotgroup f (hc ▸ hb)
          rw [hlast_ne a hane, hlast_ne b hbne]
          exact hr
      · intro x hx
        rw [hP4]
        exact one_le_freqOf _ _
      · intro _
        rw [hP4, hg1]
        simp

    | access id =>
      have hidadded : id ∈ addedIDs ops := by
        have := haccc id rfl
        rcases (mem_residentAfter ops [] id).mp this with h | h
        · exact h
        · exact absurd h (by simp)
      have hne0 : addedIDs ops ≠ [] := List.ne_nil_of_mem hidadded
      have hidkeys : id ∈ akeys st.blockFreq := (hkeys id).mpr hidadded
      have hf : alookup st.blockFreq id = some (freqOf ops id) := hfreq id hidadded
      have hfpos : 1 ≤ freqOf ops id := one_le_freqOf _ _
      have hidbn : id ∈ st.blockNodes := hwfst.keysSubNodes id hidkeys
      obtain ⟨hwf', hkperm⟩ := lfuOnAccess_spec hwfst hidkeys
      obtain ⟨P1, P2, P3⟩ := lfuOnAccess_eval hf hfpos hidbn
      have P4 := lfuOnAccess_minFreq hf hfpos hidbn
      set F := freqOf ops id with hFdef
      have hts : touches (.access id) id = true := by
        show decide (id = id) = true
        simp
      have htne : ∀ x : Int, x ≠ id → touches (.access id) x = false := by
        intro x hx
        show decide (id = x) = false
        exact decide_eq_false (fun hc => hx hc.symm)
      have hlast_ne : ∀ x : Int, x ≠ id →
          lastTouch (ops ++ [.access id]) x = lastTouch ops x := by
        intro x hx
        rw [lastTouch_append, htne x hx, if_neg (by simp)]
      have hlast_id : lastTouch (ops ++ [.access id]) id = some ops.length := by
        rw [lastTouch_append, hts, if_pos rfl]
      have hadded' : addedIDs (ops ++ [.access id]) = addedIDs ops := by
        rw [addedIDs_append]
        simp
      set GS2 := aset (aset st.freqGroups F ((groupOf st.freqGroups F).erase id)) (F + 1)
        (groupOf (aset st.freqGroups F ((groupOf st.freqGroups F).erase id)) (F + 1) ++ [id])
        with hGS2
      have hFne : F ≠ F + 1 := by omega
      have hFne' : F + 1 ≠ F := by omega
      have hGS2F : groupOf GS2 F = (groupOf st.freqGroups F).erase id := by
        rw [hGS2, groupOf_aset_ne _ _ _ hFne, groupOf_aset_self]
      have hGS2F1 : groupOf GS2 (F + 1) = groupOf st.freqGroups (F + 1) ++ [id] := by
        rw [hGS2, groupOf_aset_self, groupOf_aset_ne _ _ _ hFne']
      have hg_F : groupOf (lfuOnAccess st id).freqGroups F =
          (groupOf st.freqGroups F).erase id := by
        rw [P2]; exact hGS2F
      have hg_F1 : groupOf (lfuOnAccess st id).freqGroups (F + 1) =
          groupOf st.freqGroups (F + 1) ++ [id] := by
        rw [P2]; exact hGS2F1
      have hg_other : ∀ g : Int, g ≠ F → g ≠ F + 1 →
          groupOf (lfuOnAccess st id).freqGroups g = groupOf st.freqGroups g := by
        intro g hgF hgF1
        rw [P2, hGS2, groupOf_aset_ne _ _ _ hgF1, groupOf_aset_ne _ _ _ hgF]
      have hid_in_F : id ∈ groupOf st.freqGroups F ↔ True := by
        simp only [iff_true]
        exact (hgroups F id).mpr ⟨hidadded, rfl⟩
      have hid_not_F1 : id ∉ groupOf st.freqGroups (F + 1) := by
        intro hc
        have := ((hgroups (F + 1) id).mp hc).2
        omega
      have hid_not_other : ∀ g : Int, g ≠ F → id ∉ groupOf st.freqGroups g := by
        intro g hg hc
        exact hg ((hgroups g id).mp hc).2.symm
      have hkeys' : akeys (lfuOnAccess st id).blockFreq =
          id :: (akeys st.blockFreq).erase id := by
        rw [P1, akeys_aset]
      refine ⟨lfuOnAccess st id, by rw [happly]; rfl, hwf', ?_, ?_, ?_, ?_, ?_, ?_⟩
      · intro x
        rw [hkeys', hadded']
        simp only [List.mem_cons]
        constructor
        · rintro (hx | hx)
          · exact (hkeys x).mp (hx ▸ hidkeys)
          · exact (hkeys x).mp ((hwfst.keysNodup.mem_erase_iff).mp hx).2
        · intro hx
          by_cases hxid : x = id
          · exact Or.inl hxid
          · exact Or.inr ((hwfst.keysNodup.mem_erase_iff).mpr ⟨hxid, (hkeys x).mpr hx⟩)
      · intro x hx
        rw [hadded'] at hx
        by_cases hxid : x = id
        · subst hxid
          rw [P1, alookup_aset_self, freqOf_append_access_self]
        · rw [P1, alookup_aset_ne _ _ _ hxid, hfreq x hx,
            freqOf_append_access_ne _ _ _ hxid]
      · intro f x
        rw [hadded']
        by_cases hfF1 : f = F + 1
        · subst hfF1
          rw [hg_F1]
          simp only [List.mem_append, List.mem_singleton]
          constructor
          · rintro (hx | hx)
            · obtain ⟨hxa, hxf⟩ := (hgroups (F + 1) x).mp hx
              have hxne : x ≠ id := by
                intro hc; subst hc; omega
              rw [freqOf_append_access_ne _ _ _ hxne]
              exact ⟨hxa, hxf⟩
            · subst hx
              rw [freqOf_append_access_self]
              exact ⟨hidadded, rfl⟩
          · rintro ⟨hxa, hxf⟩
            by_cases hxid : x = id
            · exact Or.inr hxid
            · rw [freqOf_append_access_ne _ _ _ hxid] at hxf
              exact Or.inl ((hgroups (F + 1) x).mpr ⟨hxa, hxf⟩)
        · by_cases hfF : f = F
          · subst hfF
            rw [hg_F]
            rw [(hwfst.groupOf_nodup F).mem_erase_iff]
            constructor
            · rintro ⟨hxne, hx⟩
              obtain ⟨hxa, hxf⟩ := (hgroups F x).mp hx
              rw [freqOf_append_access_ne _ _ _ hxne]
              exact ⟨hxa, hxf⟩
            · rintro ⟨hxa, hxf⟩
              by_cases hxid : x = id
              · subst hxid
                rw [freqOf_append_access_self] at hxf
                omega
              · rw [freqOf_append_access_ne _ _ _ hxid] at hxf
                exact ⟨hxid, (hgroups F x).mpr ⟨hxa, hxf⟩⟩
          · rw [hg_other f hfF hfF1]
            constructor
            · intro hx
              obtain ⟨hxa, hxf⟩ := (hgroups f x).mp hx
              have hxne : x ≠ id := by
                intro hc; subst hc; exact hfF hxf.symm
              rw [freqOf_append_access_ne _ _ _ hxne]
              exact ⟨hxa, hxf⟩
            · rintro ⟨hxa, hxf⟩
              by_cases hxid : x = id
              · subst hxid
                rw [freqOf_append_access_self] at hxf
                exact absurd hxf.symm hfF1
              · rw [freqOf_append_access_ne _ _ _ hxid] at hxf
                exact (hgroups f x).mpr ⟨hxa, hxf⟩
      · intro f
        by_cases hfF1 : f = F + 1
        · subst hfF1
          rw [hg_F1, List.pairwise_append]
          refine ⟨?_, List.pairwise_singleton _ _, ?_⟩
          · refine (hgpair (F + 1)).imp_of_mem ?_
            intro a b ha hb hr
            have hane : a ≠ id := fun hc => hid_not_F1 (hc ▸ ha)
            have hbne : b ≠ id := fun hc => hid_not_F1 (hc ▸ hb)
            rw [hlast_ne a hane, hlast_ne b hbne]
            exact hr
          · intro a ha b hb
            have hane : a ≠ id := fun hc => hid_not_F1 (hc ▸ ha)
            rw [List.mem_singleton.mp hb, hlast_ne a hane, hlast_id]
            exact hlastlt a ((hgroups (F + 1) a).mp ha).1
        · by_cases hfF : f = F
          · subst hfF
            rw [hg_F]
            refine ((hgpair F).sublist (List.erase_sublist id _)).imp_of_mem ?_
            intro a b ha hb hr
            have hane : a ≠ id := ((hwfst.groupOf_nodup F).mem_erase_iff.mp ha).1
            have hbne : b ≠ id := ((hwfst.groupOf_nodup F).mem_erase_iff.mp hb).1
            rw [hlast_ne a hane, hlast_ne b hbne]
            exact hr
          · rw [hg_other f hfF hfF1]
            refine (hgpair f).imp_of_mem ?_
            intro a b ha hb hr
            have hane : a ≠ id := fun hc => hid_not_other f hfF (hc ▸ ha)
            have hbne : b ≠ id := fun hc => hid_not_other f hfF (hc ▸ hb)
            rw [hlast_ne a hane, hlast_ne b hbne]
            exact hr
      · intro x hx
        rw [hadded'] at hx
        rw [P4]
        split
        · next hcond =>
          by_cases hxid : x = id
          · rw [hxid, freqOf_append_access_self]
          · rw [freqOf_append_access_ne _ _ _ hxid]
            have hge : st.minFreq ≤ freqOf ops x := hminle x hx
            by_cases hxF : freqOf ops x = F
            · exfalso
              have hxin : x ∈ groupOf st.freqGroups F := (hgroups F x).mpr ⟨hx, hxF⟩
              have hxer : x ∈ (groupOf st.freqGroups F).erase id :=
                (hwfst.groupOf_nodup F).mem_erase_iff.mpr ⟨hxid, hxin⟩
              have hdrain : (groupOf st.freqGroups F).erase id = [] :=
                hGS2F.symm.trans hcond.2
              rw [hdrain] at hxer
              exact absurd hxer (by simp)
            · have h4 := hcond.1
              omega
        · next hcond =>
          by_cases hxid : x = id
          · rw [hxid, freqOf_append_access_self]
            have h3 := hminle id hidadded
            omega
          · rw [freqOf_append_access_ne _ _ _ hxid]
            exact hminle x hx
      · intro _
        rw [P4]
        split
        · next hcond =>
          rw [hg_F1]
          simp
        · next hcond =>
          by_cases hmfF : st.minFreq = F
          · have h2 : groupOf GS2 F ≠ [] := fun hc => hcond ⟨hmfF.symm, hc⟩
            rw [hmfF, P2]
            exact h2
          · have h3 := hminle id hidadded
            rw [hg_other st.minFreq (by omega) (by omega)]
            exact hminat hne0

/-- A fold keeps any property its step keeps. -/
theorem foldl_preserve {α β : Type} {P : β → Prop} (f : β → α → β)
    (h : ∀ b a, P b → P (f b a)) :
    ∀ (l : List α) (b : β), P b → P (l.foldl f b)
  | [], _, hb => hb
  | a :: l, b, hb => foldl_preserve f h l (f b a) (h b a hb)

/-- `performMigrationStep` never adds or removes a node: it only replaces
the source and target in place. -/
theorem length_performMigrationStep (h : HotspotMigrationState) (nodes : List PrefillNode)
    (underloaded : List NodeConcentration) (overloaded : NodeConcentration) :
    (performMigrationStep h nodes underloaded overloaded).snd.fst.length = nodes.length := by
  unfold performMigrationStep
  repeat' split
  all_goals simp [List.length_set]
  all_goals split <;> simp [List.length_set]

/-- `performMigration` never adds or removes a node. -/
theorem length_performMigration (h : HotspotMigrationState)
    (overloaded underloaded : List NodeConcentration) (nodes : List PrefillNode) :
    (performMigration h overloaded underloaded nodes).snd.length = nodes.length := by
  unfold performMigration
  refine foldl_preserve
    (P := fun acc : HotspotMigrationState × List PrefillNode × List NodeConcentration =>
      acc.snd.fst.length = nodes.length) _ ?_ _ _ rfl
  intro b a hb
  obtain ⟨h0, nodes0, under0⟩ := b
  simp only at hb ⊢
  split
  · exact hb
  · rw [length_performMigrationStep]
    exact hb

/-- `checkAndMigrateHotspots` never adds or removes a node. -/
theorem length_checkAndMigrateHotspots (h : HotspotMigrationState)
    (nodes : List PrefillNode) :
    (checkAndMigrateHotspots h nodes).snd.length = nodes.length := by
  unfold checkAndMigrateHotspots
  dsimp only
  split
  · rw [length_performMigration]
  · rfl

/-- `executeHotspotMigrationWithPrediction` never adds or removes a node:
it only replaces the source and the copy targets in place. -/
theorem length_executeHotspotMigrationWithPrediction (p : PrefixAwareState)
    (prefixKey : List Int) (pat : PrefixPattern) (srcIdx : Nat)
    (nodes : List PrefillNode) (reason : String) :
    (executeHotspotMigrationWithPrediction p prefixKey pat srcIdx nodes reason).length =
      nodes.length := by
  unfold executeHotspotMigrationWithPrediction
  split
  · rfl
  · dsimp only
    refine foldl_preserve
      (P := fun acc : List PrefillNode × Int => acc.fst.length = nodes.length) _ ?_ _ _
      (by simp)
    intro b a hb
    dsimp only
    repeat' split
    all_goals simp [List.length_set, hb]

/-- `detectOneLen` never adds or removes a node. -/
theorem length_detectOneLen (p : PrefixAwareState) (req : Request)
    (nodes : List PrefillNode) (len : Int) :
    (detectOneLen p req nodes len).length = nodes.length := by
  unfold detectOneLen
  dsimp only
  repeat' split
  all_goals
    first
      | rfl
      | (rw [length_executeHotspotMigrationWithPrediction]; simp [List.length_set])
      | simp [List.length_set]

/-- `detectAndMigrateHotspots` never adds or removes a node. -/
theorem length_detectAndMigrateHotspots (p : PrefixAwareState) (req : Request)
    (nodes : List PrefillNode) :
    (detectAndMigrateHotspots p req nodes).length = nodes.length := by
  unfold detectAndMigrateHotspots
  refine foldl_preserve (P := fun l : List PrefillNode => l.length = nodes.length) _ ?_ _ _ rfl
  intro b a hb
  rw [length_detectOneLen]
  exact hb

/-- `updatePrefixPatterns` never adds or removes a node. -/
theorem length_updatePrefixPatterns (p : PrefixAwareState) (req : Request)
    (selIdx : Nat) (nodes : List PrefillNode) :
    (updatePrefixPatterns p req selIdx nodes).length = nodes.length := by
  unfold updatePrefixPatterns
  split
  · rfl
  · simp [List.length_set]

/-- The random selector answers `none` exactly on an empty node list, and
any index it returns is in range. -/
theorem randomSelectNode_spec (k : Nat) (req : Request) (nodes : List PrefillNode) :
    (randomSelectNode k req nodes = none ↔ nodes = []) ∧
    (∀ i, randomSelectNode k req nodes = some i → i < nodes.length) := by
  unfold randomSelectNode
  split
  · next h =>
    refine ⟨⟨fun _ => List.length_eq_zero.mp h, fun _ => rfl⟩, ?_⟩
    intro i hc
    exact absurd hc (by simp)
  · next h =>
    refine ⟨⟨fun hc => absurd hc (by simp), fun hc => absurd (by rw [hc]; rfl) h⟩, ?_⟩
    intro i hc
    injection hc with hc
    rw [← hc]
    exact Nat.mod_lt _ (Nat.pos_of_ne_zero h)

/-- `hSelectNode` keeps the node count, answers `none` exactly on an empty
node list, and any index it returns is in range of the original list. -/
theorem hSelectNode_spec (h : HotspotMigrationState) (req : Request)
    (nodes : List PrefillNode) :
    (hSelectNode h req nodes).snd.snd.length = nodes.length ∧
    ((hSelectNode h req nodes).fst = none ↔ nodes = []) ∧
    (∀ i, (hSelectNode h req nodes).fst = some i → i < nodes.length) := by
  unfold hSelectNode
  by_cases hn : nodes.length = 0
  · rw [if_pos hn]
    have he : nodes = [] := List.length_eq_zero.mp hn
    subst he
    exact ⟨rfl, by simp, fun i hc => absurd hc (by simp)⟩
  · rw [if_neg hn]
    dsimp only
    split
    · next hmig =>
      have hl : (checkAndMigrateHotspots { h with requestCounter := h.requestCounter + 1 }
          nodes).snd.length = nodes.length := length_checkAndMigrateHotspots _ _
      refine ⟨hl, ?_, ?_⟩
      · unfold selectNodeWithHotspotAwareness
        rw [selectByScore_eq_none_iff]
        constructor
        · intro hc
          have := congrArg List.length hc
          rw [hl] at this
          exact List.length_eq_zero.mp this
        · intro hc
          exact absurd (by rw [← hl, hc]; rfl) hn
      · intro i hc
        unfold selectNodeWithHotspotAwareness at hc
        have := selectByScore_lt _ hc
        rw [hl] at this
        exact this
    · refine ⟨rfl, ?_, ?_⟩
      · unfold selectNodeWithHotspotAwareness
        rw [selectByScore_eq_none_iff]
      · intro i hc
        unfold selectNodeWithHotspotAwareness at hc
        exact selectByScore_lt _ hc

/-- `paSelectNode` keeps the node count, answers `none` exactly on an empty
node list, and any index it returns is in range of the original list. -/
theorem paSelectNode_spec (p : PrefixAwareState) (req : Request)
    (nodes : List PrefillNode) :
    (paSelectNode p req nodes).snd.snd.length = nodes.length ∧
    ((paSelectNode p req nodes).fst = none ↔ nodes = []) ∧
    (∀ i, (paSelectNode p req nodes).fst = some i → i < nodes.length) := by
  unfold paSelectNode
  by_cases hn : nodes.length = 0
  · rw [if_pos hn]
    have he : nodes = [] := List.length_eq_zero.mp hn
    subst he
    exact ⟨rfl, by simp, fun i hc => absurd hc (by simp)⟩
  · rw [if_neg hn]
    dsimp only
    split
    · next heq =>
      exfalso
      unfold selectBestNodeWithPrefixAwareness at heq
      rw [selectByScore_eq_none_iff] at heq
      have hL := congrArg List.length heq
      rw [length_detectAndMigrateHotspots] at hL
      simp only [List.length_map, List.length_nil] at hL
      exact hn hL
    · next i heq =>
      unfold selectBestNodeWithPrefixAwareness at heq
      have hlt := selectByScore_lt _ heq
      rw [length_detectAndMigrateHotspots, List.length_map] at hlt
      refine ⟨?_, ?_, ?_⟩
      · rw [length_updatePrefixPatterns, length_detectAndMigrateHotspots, List.length_map]
      · refine ⟨fun hc => Option.noConfusion hc, fun hc => absurd (by rw [hc]; rfl) hn⟩
      · intro j hj
        injection hj with hj
        rw [← hj]
        exact hlt

/-- A duplicate-free FIFO order list is a well-formed policy state. -/
theorem auxWf_fifo (l : List Int) (h : l.Nodup) : AuxWf (.fifo l) := h

/-- Request fixture for the concrete witnesses. -/
def wReq : Request :=
  { timestamp := 0, inputLength := 100, outputLength := 10, hashIDs := [1, 2] }

/-- Block fixture. -/
def wBlock (hashID hits : Int) : Block :=
  { hashID := hashID, size := 512, hitCount := hits, accessSeq := 1, createSeq := 1,
    refCount := 0 }

/-- Node fixture: FIFO policy over the given IDs, consistent memory
accounting, empty request queue. -/
def wNode (nm : String) (ids : List Int) (queueLen : Nat) (maxCache : Int) : PrefillNode :=
  { id := nm,
    cacheBlocks := ids.map (fun i => (i, wBlock i 1)),
    maxCacheSize := maxCache,
    maxMemoryMB := 100,
    usedMemoryMB := (ids.length : ℚ) * blockMemoryMB,
    totalHits := 0, totalMisses := 0,
    evictionAlgo := .fifo ids,
    requestQueue := List.replicate queueLen wReq,
    processingTime := 1, networkBandwidth := 1000,
    seqCounter := 0, hotspotMetrics := none }

/-- C1 counterexample: `migrateBlocks` moves a block between the nodes'
block maps without touching either node's eviction structures, so on two
nodes that satisfy the block-map/eviction-aux mirror invariant it produces
a target node whose block map holds the migrated ID while its eviction aux
does not, and whose sizes differ.  The claim's "after every operation"
therefore fails at migration. -/
theorem claim_C1_counterexample :
    MirrorInv (wNode "s" [1] 0 10) ∧ MirrorInv (wNode "t" [] 0 10) ∧
    ¬ MirrorInv (migrateBlocks (wNode "s" [1] 0 10) (wNode "t" [] 0 10) [1]).snd := by
  refine ⟨⟨by decide, auxWf_fifo _ (by decide), by decide, by decide⟩,
          ⟨by decide, auxWf_fifo _ (by decide), by decide, by decide⟩, ?_⟩
  intro h
  have h1 : (1 : Int) ∈ akeys (migrateBlocks (wNode "s" [1] 0 10) (wNode "t" [] 0 10)
      [1]).snd.cacheBlocks := by decide
  have := h.2.2.1 1 h1
  exact absurd this (by decide)

/-- C1 (amended): the mirror invariant is an invariant of request
processing (the per-block hit/miss loop together with its eviction loop) on
every node, provided no genuine block carries the `-1` sentinel ID; the Go
`migrateBlocks` of the hot-spot selector, by contrast, breaks it (see the
counterexample), so the amended claim restricts "every operation" to the
processor's operations. -/
theorem claim_C1 (selIdx : Option Nat) (req : Request) (nodes : List PrefillNode)
    (hm : ∀ n ∈ nodes, MirrorInv n)
    (hs : ∀ n ∈ nodes, -1 ∉ akeys n.cacheBlocks)
    (hid : ∀ id ∈ req.hashIDs, id ≠ -1) :
    ∀ n ∈ (processRequestCore selIdx req nodes).snd.fst, MirrorInv n := by
  unfold processRequestCore
  cases selIdx with
  | none => exact hm
  | some i =>
    dsimp only
    cases hni : nodes[i]? with
    | none => exact hm
    | some n =>
      dsimp only
      intro m hmem
      rcases List.mem_or_eq_of_mem_set hmem with hmem | hmem
      · exact hm m hmem
      · subst hmem
        have hnmem : n ∈ nodes := by
          obtain ⟨hlt, hget⟩ := List.getElem?_eq_some.mp hni
          exact hget ▸ List.getElem_mem hlt
        have hm1 : MirrorInv { n with requestQueue := appendQueue n.requestQueue req } :=
          hm n hnmem
        have hs1 : -1 ∉ akeys ({ n with
            requestQueue := appendQueue n.requestQueue req } : PrefillNode).cacheBlocks :=
          hs n hnmem
        exact (processBlocksFold_spec req.hashIDs _ hm1 hs1 hid).1

/-- Closed instance of the amended C1: one node processing a two-block
request keeps the mirror invariant. -/
theorem claim_C1_witness :
    MirrorInv (wNode "a" [1] 0 10) ∧
    ∀ n ∈ (processRequestCore (some 0) wReq [wNode "a" [1] 0 10]).snd.fst, MirrorInv n := by
  refine ⟨⟨by decide, auxWf_fifo _ (by decide), by decide, by decide⟩, ?_⟩
  refine claim_C1 (some 0) wReq [wNode "a" [1] 0 10] ?_ ?_ ?_
  · intro n hn
    rw [List.mem_singleton] at hn
    subst hn
    exact ⟨by decide, auxWf_fifo _ (by decide), by decide, by decide⟩
  · intro n hn
    rw [List.mem_singleton] at hn
    subst hn
    decide
  · decide

/-- C2: after a processed request every node stays within its memory bound
unless the eviction loop broke out on the `-1` sentinel (the returned
exhaustion flag); and whenever a node was selected the call returns a
result rather than failing, exhausted or not.  Hypotheses: every node
starts mirror-consistent, memory-consistent and within its bound, has at
least 1 MB of capacity, and no genuine block ID is the `-1` sentinel. -/
theorem claim_C2 (selIdx : Option Nat) (req : Request) (nodes : List PrefillNode)
    (hm : ∀ n ∈ nodes, MirrorInv n)
    (hmem : ∀ n ∈ nodes, MemConsistent n)
    (hbound : ∀ n ∈ nodes, n.usedMemoryMB ≤ (n.maxMemoryMB : ℚ))
    (hmax : ∀ n ∈ nodes, 1 ≤ n.maxMemoryMB)
    (hs : ∀ n ∈ nodes, -1 ∉ akeys n.cacheBlocks)
    (hid : ∀ id ∈ req.hashIDs, id ≠ -1) :
    ((processRequestCore selIdx req nodes).snd.snd = false →
      ∀ n ∈ (processRequestCore selIdx req nodes).snd.fst,
        n.usedMemoryMB ≤ (n.maxMemoryMB : ℚ)) ∧
    (∀ i, selIdx = some i → i < nodes.length →
      ((processRequestCore selIdx req nodes).fst).isSome = true) := by
  unfold processRequestCore
  cases selIdx with
  | none =>
    refine ⟨fun _ => hbound, ?_⟩
    intro i hc
    exact absurd hc (by simp)
  | some i =>
    dsimp only
    cases hni : nodes[i]? with
    | none =>
      refine ⟨fun _ => hbound, ?_⟩
      intro j hj hlt
      injection hj with hj
      subst hj
      have := List.getElem?_eq_none_iff.mp hni
      omega
    | some n =>
      dsimp only
      have hnmem : n ∈ nodes := by
        obtain ⟨hlt, hget⟩ := List.getElem?_eq_some.mp hni
        exact hget ▸ List.getElem_mem hlt
      constructor
      · intro hflag m hmem2
        rcases List.mem_or_eq_of_mem_set hmem2 with h | h
        · exact hbound m h
        · subst h
          have key := (processBlocksFold_spec req.hashIDs
            { node := { n with requestQueue := appendQueue n.requestQueue req },
              hits := 0, misses := 0, evicted := 0, exhausted := false }
            (hm n hnmem) (hs n hnmem) hid).2.2.2.2.2
          exact key (hmem n hnmem) (hmax n hnmem) (fun _ => hbound n hnmem) hflag
      · intro j hj hlt
        rfl

/-- Closed instance of C2: one node, one two-block request, memory bound
kept and a result returned. -/
theorem claim_C2_witness :
    ((processRequestCore (some 0) wReq [wNode "b" [] 0 10]).snd.snd = false →
      ∀ n ∈ (processRequestCore (some 0) wReq [wNode "b" [] 0 10]).snd.fst,
        n.usedMemoryMB ≤ (n.maxMemoryMB : ℚ)) ∧
    (∀ i, (some 0 : Option Nat) = some i →
      i < ([wNode "b" [] 0 10] : List PrefillNode).length →
      ((processRequestCore (some 0) wReq [wNode "b" [] 0 10]).fst).isSome = true) := by
  refine claim_C2 (some 0) wReq [wNode "b" [] 0 10] ?_ ?_ ?_ ?_ ?_ ?_
  · intro n hn
    rw [List.mem_singleton] at hn
    subst hn
    exact ⟨by decide, auxWf_fifo _ (by decide), by decide, by decide⟩
  · intro n hn
    rw [List.mem_singleton] at hn
    subst hn
    simp [MemConsistent, wNode]
  · intro n hn
    rw [List.mem_singleton] at hn
    subst hn
    norm_num [wNode, blockMemoryMB]
  · intro n hn
    rw [List.mem_singleton] at hn
    subst hn
    decide
  · intro n hn
    rw [List.mem_singleton] at hn
    subst hn
    decide
  · decide

/-- C3 counterexample: the Go LRU `OnAdd` prepends unconditionally, so
re-adding an already-resident ID duplicates its node in the order list.
After `OnAdd 1, OnAdd 2, OnAdd 1` the list is `[1, 2, 1]`: `Evict` returns
`1` although block `2`'s only touch (index 1) is less recent than block
`1`'s last touch (index 2), and the evicted ID `1` is still tracked by the
policy's own state afterwards.  The claim as stated, quantified over any
finite sequence of operations, is therefore false. -/
theorem claim_C3_counterexample :
    applyOps (.lru []) [.add 1, .add 2, .add 1] = .lru [1, 2, 1] ∧
    (evictE (.lru [1, 2, 1])).fst = 1 ∧
    lastTouch [.add 1, .add 2, .add 1] 2 = some 1 ∧
    lastTouch [.add 1, .add 2, .add 1] 1 = some 2 ∧
    1 ∈ auxIds (evictE (.lru [1, 2, 1])).snd := by
  decide

/-- C3 (amended): for any well-formed finite sequence of operations — each
`OnAdd` adds a not-yet-resident ID and each `UpdateOnAccess` touches a
resident one, which is how the processor drives the policy — the LRU
`Evict` returns the resident block ID whose most recent touch (its `OnAdd`,
or its last `UpdateOnAccess`) is least recent, and removes exactly that ID
from the policy's own state. -/
theorem claim_C3 (ops : List CacheOp) (hwf : wfOpsFrom [] ops = true)
    (hne : addedIDs ops ≠ []) :
    ∃ order v, applyOps (.lru []) ops = .lru order ∧
      evictE (.lru order) = (v, .lru order.dropLast) ∧
      v ∈ addedIDs ops ∧
      (∀ x ∈ addedIDs ops, (lastTouch ops v).getD 0 ≤ (lastTouch ops x).getD 0) ∧
      auxIds (evictE (.lru order)).snd = (auxIds (.lru order)).erase v := by
  obtain ⟨order, heq, hmem, hnodup, hpair⟩ := lru_invariant ops hwf
  have hone : order ≠ [] := by
    obtain ⟨a, ha⟩ := List.exists_mem_of_ne_nil _ hne
    intro hc
    rw [hc] at hmem
    exact absurd ((hmem a).mpr ha) (by simp)
  set v := order.getLast hone with hv
  have hlast : order.getLast? = some v := List.getLast?_eq_getLast order hone
  have hdec : order.dropLast ++ [v] = order := List.dropLast_append_getLast hone
  have hev : evictE (.lru order) = (v, .lru order.dropLast) := by
    unfold evictE
    dsimp only
    rw [hlast]
  have hvmem : v ∈ order := List.getLast_mem hone
  have hvnotdrop : v ∉ order.dropLast := by
    intro hc
    have h2 : (order.dropLast ++ [v]).Nodup := by
      rw [hdec]
      exact hnodup
    rw [List.nodup_append] at h2
    exact h2.2.2 hc (List.mem_singleton_self v)
  have hcross : ∀ a ∈ order.dropLast, (lastTouch ops v).getD 0 < (lastTouch ops a).getD 0 := by
    have hp2 : List.Pairwise (fun a b => (lastTouch ops b).getD 0 < (lastTouch ops a).getD 0)
        (order.dropLast ++ [v]) := by
      rw [hdec]
      exact hpair
    rw [List.pairwise_append] at hp2
    intro a ha
    exact hp2.2.2 a ha v (List.mem_singleton_self v)
  refine ⟨order, v, heq, hev, (hmem v).mp hvmem, ?_, ?_⟩
  · intro x hx
    have hxo : x ∈ order := (hmem x).mpr hx
    rw [← hdec] at hxo
    rcases List.mem_append.mp hxo with hxo | hxo
    · exact le_of_lt (hcross x hxo)
    · rw [List.mem_singleton.mp hxo]
  · rw [hev]
    show order.dropLast = order.erase v
    conv_rhs => rw [← hdec]
    rw [List.erase_append_right _ hvnotdrop, List.erase_cons_head, List.append_nil]

/-- Closed instance of the amended C3: after adding 5 and 7 and touching 5,
the LRU victim is 7. -/
theorem claim_C3_witness :
    ∃ order v, applyOps (.lru []) [.add 5, .add 7, .access 5] = .lru order ∧
      evictE (.lru order) = (v, .lru order.dropLast) ∧
      v ∈ addedIDs [.add 5, .add 7, .access 5] ∧
      (∀ x ∈ addedIDs [.add 5, .add 7, .access 5],
        (lastTouch [.add 5, .add 7, .access 5] v).getD 0 ≤
          (lastTouch [.add 5, .add 7, .access 5] x).getD 0) ∧
      auxIds (evictE (.lru order)).snd = (auxIds (.lru order)).erase v :=
  claim_C3 [.add 5, .add 7, .access 5] (by decide) (by decide)

/-- Operation sequence of the C4 counterexample: block 1 is re-added while
still resident, then accessed past block 2's frequency. -/
def c4ops : List CacheOp :=
  [.add 1, .access 1, .add 1, .access 1, .access 1, .access 1,
   .add 2, .access 2, .access 2]

/-- C4 counterexample: the Go LFU `OnAdd` files the ID under frequency 1
and resets `minFreq` unconditionally, so re-adding an already-resident ID
leaves a stale copy of it in its old frequency bucket.  After `c4ops` the
policy maps block 1 to frequency 4 and block 2 to frequency 3, yet
`minFreq` is 2 and the frequency-2 bucket still holds the stale copy of
block 1, so `Evict` returns block 1 although block 2's frequency is
strictly lower.  The claim as stated, quantified over any finite sequence
of operations, is therefore false. -/
theorem claim_C4_counterexample :
    applyOps (.lfu lfuEmpty) c4ops =
      .lfu { freqGroups := [(3, [2]), (2, [1]), (1, []), (4, [1])],
             blockFreq := [(2, 3), (1, 4)], blockNodes := [2, 1], minFreq := 2 } ∧
    alookup [((2 : Int), (3 : Int)), (1, 4)] 1 = some 4 ∧
    alookup [((2 : Int), (3 : Int)), (1, 4)] 2 = some 3 ∧
    (evictE (applyOps (.lfu lfuEmpty) c4ops)).fst = 1 := by
  decide

/-- C4 (amended): for any well-formed finite sequence of operations — each
`OnAdd` adds a not-yet-resident ID and each `UpdateOnAccess` touches a
resident one, which is how the processor drives the policy — the LFU
`Evict` returns a resident block ID of minimum access frequency (one plus
the number of `UpdateOnAccess` calls since its `OnAdd`), breaking ties by
earliest admission to the minimum-frequency bucket — among equal-frequency
blocks, the one whose admitting touch is oldest — and removes exactly that
ID from the policy's tracked key set.  Unrestricted sequences are refuted
by the counterexample: a re-add leaves a stale bucket copy behind. -/
theorem claim_C4 (ops : List CacheOp) (hwf : wfOpsFrom [] ops = true)
    (hne : addedIDs ops ≠ []) :
    ∃ st v st', applyOps (.lfu lfuEmpty) ops = .lfu st ∧
      evictE (.lfu st) = (v, .lfu st') ∧
      v ∈ addedIDs ops ∧
      (∀ x ∈ addedIDs ops, freqOf ops v ≤ freqOf ops x) ∧
      (∀ x ∈ addedIDs ops, freqOf ops x = freqOf ops v → x ≠ v →
        (lastTouch ops v).getD 0 < (lastTouch ops x).getD 0) ∧
      auxIds (.lfu st') = (auxIds (.lfu st)).erase v := by
  obtain ⟨st, heq, hwfst, hkeys, hfreq, hgroups, hgpair, hminle, hminat⟩ :=
    lfu_invariant ops hwf
  have hbf : st.blockFreq ≠ [] := by
    obtain ⟨a, ha⟩ := List.exists_mem_of_ne_nil _ hne
    intro hc
    have := (hkeys a).mpr ha
    rw [hc] at this
    exact absurd this (by simp [akeys])
  have hg := hminat hne
  cases hgrp : groupOf st.freqGroups st.minFreq with
  | nil => exact absurd hgrp hg
  | cons v rest =>
    have hvmem : v ∈ groupOf st.freqGroups st.minFreq := by
      rw [hgrp]
      exact List.mem_cons_self v rest
    obtain ⟨hvadd, hvfreq⟩ := (hgroups st.minFreq v).mp hvmem
    have hvkeys : v ∈ akeys st.blockFreq := (hkeys v).mpr hvadd
    have hev : lfuEvict st = (v, lfuRemoveBlock st v) := by
      unfold lfuEvict
      rw [if_neg hbf]
      dsimp only
      rw [if_neg hg, hgrp]
    have hevE : evictE (.lfu st) = (v, .lfu (lfuRemoveBlock st v)) := by
      show ((lfuEvict st).fst, EvictionState.lfu (lfuEvict st).snd) = _
      rw [hev]
    obtain ⟨hkerase, _⟩ := lfuRemoveBlock_spec hwfst hvkeys
    refine ⟨st, v, lfuRemoveBlock st v, heq, hevE, hvadd, ?_, ?_, ?_⟩
    · intro x hx
      rw [hvfreq]
      exact hminle x hx
    · intro x hx hxf hxv
      rw [hvfreq] at hxf
      have hxg : x ∈ groupOf st.freqGroups st.minFreq := (hgroups st.minFreq x).mpr ⟨hx, hxf⟩
      rw [hgrp] at hxg
      rcases List.mem_cons.mp hxg with h | h
      · exact absurd h hxv
      · have hp := hgpair st.minFreq
        rw [hgrp] at hp
        exact (List.pairwise_cons.mp hp).1 x h
    · exact hkerase

/-- Closed instance of C4: after adding 3 and 4 and touching 3, the LFU
victim is the frequency-1 block 4. -/
theorem claim_C4_witness :
    ∃ st v st', applyOps (.lfu lfuEmpty) [.add 3, .add 4, .access 3] = .lfu st ∧
      evictE (.lfu st) = (v, .lfu st') ∧
      v ∈ addedIDs [.add 3, .add 4, .access 3] ∧
      (∀ x ∈ addedIDs [.add 3, .add 4, .access 3],
        freqOf [.add 3, .add 4, .access 3] v ≤ freqOf [.add 3, .add 4, .access 3] x) ∧
      (∀ x ∈ addedIDs [.add 3, .add 4, .access 3],
        freqOf [.add 3, .add 4, .access 3] x = freqOf [.add 3, .add 4, .access 3] v →
        x ≠ v →
        (lastTouch [.add 3, .add 4, .access 3] v).getD 0 <
          (lastTouch [.add 3, .add 4, .access 3] x).getD 0) ∧
      auxIds (.lfu st') = (auxIds (.lfu st)).erase v :=
  claim_C4 [.add 3, .add 4, .access 3] (by decide) (by decide)

/-- Score formula the C5 claim asserts, written from the claim's words for
comparison with the code: `α·hit_ratio − β·load − concentration_penalty`
with the load taken as the raw fraction `|queue| / 100`. -/
def claimedHotspotScore (h : HotspotMigrationState) (req : Request)
    (allNodes : List PrefillNode) (n : PrefillNode) : ℚ :=
  let hitRatio := (hitCountOn n req.hashIDs : ℚ) / (req.hashIDs.length : ℚ)
  let load := (n.requestQueue.length : ℚ) / 100
  let totalBlocks : Int := allNodes.foldl (fun acc m => acc + (m.cacheBlocks.length : Int)) 0
  let concentrationRatio : ℚ :=
    if 0 < totalBlocks then (n.cacheBlocks.length : ℚ) / (totalBlocks : ℚ) else 0
  h.alpha * hitRatio - h.beta * load - max 0 (concentrationRatio - h.migrationThreshold) * 2

/-- Score formula of the amended C5: the claim's words with the load
fraction corrected to the code's `len(RequestQueue) / MaxCacheSize`. -/
def amendedHotspotScore (h : HotspotMigrationState) (req : Request)
    (allNodes : List PrefillNode) (n : PrefillNode) : ℚ :=
  let hitRatio := (hitCountOn n req.hashIDs : ℚ) / (req.hashIDs.length : ℚ)
  let load := (n.requestQueue.length : ℚ) / (n.maxCacheSize : ℚ)
  let totalBlocks : Int := allNodes.foldl (fun acc m => acc + (m.cacheBlocks.length : Int)) 0
  let concentrationRatio : ℚ :=
    if 0 < totalBlocks then (n.cacheBlocks.length : ℚ) / (totalBlocks : ℚ) else 0
  h.alpha * hitRatio - h.beta * load - max 0 (concentrationRatio - h.migrationThreshold) * 2

/-- Hot-spot selector state fixture for C5. -/
def c5h : HotspotMigrationState :=
  { alpha := 1, beta := 1, migrationThreshold := 10, hotspotThreshold := 1,
    migrationInterval := 100, requestCounter := 1, migrationHistory := [] }

/-- C5 fixture: both requested blocks cached, queue of 100, capacity 1000. -/
def c5n0 : PrefillNode := wNode "a" [1, 2] 100 1000

/-- C5 fixture: one requested block cached, empty queue. -/
def c5n1 : PrefillNode := wNode "b" [1] 0 1000

/-- With two candidates, the strict-maximum fold keeps the first node
unless the second scores strictly higher. -/
theorem selectByScore_pair_left (score : PrefillNode → ℚ) (a b : PrefillNode)
    (hle : score b ≤ score a) : selectByScore score [a, b] = some 0 := by
  show some (selectAux score [b] 1 (0, score a)).fst = some 0
  unfold selectAux
  rw [if_neg (not_lt.mpr hle)]
  rfl

/-- The first node in the concentration list whose ID matches is the node's
own entry when node IDs are duplicate-free. -/
theorem find?_map_nodeId (g : PrefillNode → NodeConcentration)
    (hg : ∀ m, (g m).nodeId = m.id) :
    ∀ (nodes : List PrefillNode) (n : PrefillNode), n ∈ nodes →
    (nodes.map PrefillNode.id).Nodup →
    (nodes.map g).find? (fun c => c.nodeId == n.id) = some (g n) := by
  intro nodes
  induction nodes with
  | nil =>
    intro n hn _
    exact absurd hn (by simp)
  | cons m rest ih =>
    intro n hn hnd
    rw [List.map_cons, List.find?_cons]
    rcases List.mem_cons.mp hn with hn | hn
    · subst hn
      have hb : ((g n).nodeId == n.id) = true := by
        rw [hg]
        exact beq_self_eq_true _
      rw [hb]
    · have hne : m.id ≠ n.id := by
        intro hc
        rw [List.map_cons, List.nodup_cons] at hnd
        exact hnd.1 (hc ▸ List.mem_map_of_mem PrefillNode.id hn)
      have hb : ((g m).nodeId == n.id) = false := by
        rw [hg]
        simp [hne]
      rw [hb]
      rw [List.map_cons, List.nodup_cons] at hnd
      exact ih n hn hnd.2

/-- The code's hot-spot score equals the amended formula on every listed
node when node IDs are duplicate-free. -/
theorem hCalculateScore_eq_amended (h : HotspotMigrationState) (req : Request)
    (nodes : List PrefillNode) (n : PrefillNode) (hmem : n ∈ nodes)
    (hnd : (nodes.map PrefillNode.id).Nodup) :
    hCalculateScore h req nodes n = amendedHotspotScore h req nodes n := by
  unfold hCalculateScore amendedHotspotScore analyzeConcentration
  dsimp only
  rw [find?_map_nodeId _ (fun _ => rfl) nodes n hmem hnd]
  dsimp only
  set tb : Int := nodes.foldl (fun acc m => acc + (m.cacheBlocks.length : Int)) 0 with htb
  set r : ℚ := if 0 < tb then (n.cacheBlocks.length : ℚ) / (tb : ℚ) else 0 with hr
  by_cases hgt : r > h.migrationThreshold
  · rw [if_pos hgt]
    have : max 0 (r - h.migrationThreshold) = r - h.migrationThreshold :=
      max_eq_right (by linarith)
    rw [this]
  · rw [if_neg hgt]
    have : max 0 (r - h.migrationThreshold) = 0 := max_eq_left (by linarith [not_lt.mp hgt])
    rw [this]
    ring

/-- C5 counterexample: on two well-formed nodes the code's load fraction
`|queue| / MaxCacheSize` and the claim's `|queue| / 100` rank the nodes
oppositely — the code score prefers the first node and the selector picks
it, while the claimed formula scores the second node strictly higher. -/
theorem claim_C5_counterexample :
    selectNodeWithHotspotAwareness c5h wReq [c5n0, c5n1] = some 0 ∧
    claimedHotspotScore c5h wReq [c5n0, c5n1] c5n0 <
      claimedHotspotScore c5h wReq [c5n0, c5n1] c5n1 := by
  have haa : (("a" : String) == "a") = true := by decide
  have hab : (("a" : String) == "b") = false := by decide
  have hbb : (("b" : String) == "b") = true := by decide
  have hs0 : hCalculateScore c5h wReq [c5n0, c5n1] c5n0 = 9 / 10 := by
    norm_num [hCalculateScore, hitCountOn, analyzeConcentration, hotBlocksGlobal,
      isHotBlock, alookup, aset, aerase, akeys, c5h, c5n0, c5n1, wNode, wReq, wBlock,
      List.find?, haa, hab, hbb]
  have hs1 : hCalculateScore c5h wReq [c5n0, c5n1] c5n1 = 1 / 2 := by
    norm_num [hCalculateScore, hitCountOn, analyzeConcentration, hotBlocksGlobal,
      isHotBlock, alookup, aset, aerase, akeys, c5h, c5n0, c5n1, wNode, wReq, wBlock,
      List.find?, haa, hab, hbb]
  constructor
  · show selectByScore (hCalculateScore c5h wReq [c5n0, c5n1]) [c5n0, c5n1] = some 0
    apply selectByScore_pair_left
    rw [hs0, hs1]
    norm_num
  · have hc0 : claimedHotspotScore c5h wReq [c5n0, c5n1] c5n0 = 0 := by
      norm_num [claimedHotspotScore, hitCountOn, alookup, c5h, c5n0, c5n1, wNode, wReq,
        wBlock]
    have hc1 : claimedHotspotScore c5h wReq [c5n0, c5n1] c5n1 = 1 / 2 := by
      norm_num [claimedHotspotScore, hitCountOn, alookup, c5h, c5n0, c5n1, wNode, wReq,
        wBlock]
    rw [hc0, hc1]
    norm_num

/-- C5 (amended): for every request and non-empty node list with
duplicate-free node IDs, the hot-spot-migrating selector returns a node
maximizing `α·hit_ratio − β·load − concentration_penalty` with the load
fraction `|queue| / MaxCacheSize` (the code's formula; the claim's
`|queue| / 100` is refuted by the counterexample). -/
theorem claim_C5 (h : HotspotMigrationState) (req : Request) (nodes : List PrefillNode)
    (hne : nodes ≠ []) (hnd : (nodes.map PrefillNode.id).Nodup) :
    ∃ idx, selectNodeWithHotspotAwareness h req nodes = some idx ∧
      ∃ hidx : idx < nodes.length,
        ∀ j, ∀ hj : j < nodes.length,
          amendedHotspotScore h req nodes (nodes.get ⟨j, hj⟩) ≤
            amendedHotspotScore h req nodes (nodes.get ⟨idx, hidx⟩) := by
  obtain ⟨idx, hsel, hidx, hmax, -⟩ := selectByScore_spec (hCalculateScore h req nodes) nodes hne
  refine ⟨idx, hsel, hidx, ?_⟩
  intro j hj
  have h1 := hmax j hj
  rw [hCalculateScore_eq_amended h req nodes _ (List.get_mem nodes _ _) hnd,
    hCalculateScore_eq_amended h req nodes _ (List.get_mem nodes _ _) hnd] at h1
  exact h1

/-- Closed instance of the amended C5 at the counterexample's inputs. -/
theorem claim_C5_witness :
    ∃ idx, selectNodeWithHotspotAwareness c5h wReq [c5n0, c5n1] = some idx ∧
      ∃ hidx : idx < ([c5n0, c5n1] : List PrefillNode).length,
        ∀ j, ∀ hj : j < ([c5n0, c5n1] : List PrefillNode).length,
          amendedHotspotScore c5h wReq [c5n0, c5n1]
              (([c5n0, c5n1] : List PrefillNode).get ⟨j, hj⟩) ≤
            amendedHotspotScore c5h wReq [c5n0, c5n1]
              (([c5n0, c5n1] : List PrefillNode).get ⟨idx, hidx⟩) :=
  claim_C5 c5h wReq [c5n0, c5n1] (by simp) (by decide)

/-- Migration source fixture for C6: one cached block with hit count 5,
mirror-consistent FIFO policy, sequence counter 3. -/
def c6src : PrefillNode :=
  { id := "s", cacheBlocks := [(1, wBlock 1 5)], maxCacheSize := 10, maxMemoryMB := 100,
    usedMemoryMB := blockMemoryMB, totalHits := 0, totalMisses := 0,
    evictionAlgo := .fifo [1], requestQueue := [], processingTime := 1,
    networkBandwidth := 1000, seqCounter := 3, hotspotMetrics := none }

/-- Migration target fixture for C6: empty cache, sequence counter 9. -/
def c6tgt : PrefillNode :=
  { wNode "t" [] 0 10 with seqCounter := 9 }

/-- C6 counterexample: the hot-spot selector's `migrateBlocks` stores the
source's block record in the target unchanged — hit count still 5, both
sequence stamps still the source's values rather than freshly stamped from
the target's counter (which is not bumped) — and the target's eviction
policy is never notified (its aux stays empty).  The claim's "whenever
migration inserts a block" is therefore false on the moving path. -/
theorem claim_C6_counterexample :
    alookup (migrateBlocks c6src c6tgt [1]).snd.cacheBlocks 1 = some (wBlock 1 5) ∧
    (wBlock 1 5).hitCount = 5 ∧
    (wBlock 1 5).accessSeq = 1 ∧
    (migrateBlocks c6src c6tgt [1]).snd.seqCounter = 9 ∧
    auxIds (migrateBlocks c6src c6tgt [1]).snd.evictionAlgo = [] := by
  decide

/-- C6 (amended): the replicating migration path
(`executeHotspotMigrationWithPrediction`, per copied block
`copyOnePrefixBlock`) does insert a fresh block: whenever the source holds
the block and the target has room, the stored copy has hit count 1 and both
sequence numbers stamped from the target's incremented sequence counter,
and the target's eviction policy is notified via `OnAdd`.  The hot-spot
*moving* path (`migrateBlocks`) does none of this (see the counterexample),
so the amended claim restricts "migration" to the replicating copies. -/
theorem claim_C6 (src t : PrefillNode) (hashID : Int) (b : Block)
    (hsrc : alookup src.cacheBlocks hashID = some b)
    (hroom : (t.cacheBlocks.length : Int) < t.maxCacheSize) :
    alookup (copyOnePrefixBlock src t hashID).fst.cacheBlocks hashID =
      some { hashID := b.hashID, size := b.size, hitCount := 1,
             accessSeq := t.seqCounter + 1, createSeq := t.seqCounter + 1,
             refCount := 0 } ∧
    (copyOnePrefixBlock src t hashID).fst.seqCounter = t.seqCounter + 1 ∧
    (copyOnePrefixBlock src t hashID).fst.evictionAlgo = onAddE t.evictionAlgo hashID ∧
    (copyOnePrefixBlock src t hashID).snd = 1 := by
  unfold copyOnePrefixBlock
  rw [hsrc]
  dsimp only
  rw [if_pos hroom]
  exact ⟨alookup_aset_self _ _ _, rfl, rfl, rfl⟩

/-- Closed instance of the amended C6: copying block 1 into the fixture
target stores a fresh block stamped 10 = 9 + 1 with hit count 1 and files
it with the target's FIFO policy. -/
theorem claim_C6_witness :
    alookup (copyOnePrefixBlock c6src c6tgt 1).fst.cacheBlocks 1 =
      some { hashID := 1, size := 512, hitCount := 1, accessSeq := 10, createSeq := 10,
             refCount := 0 } ∧
    (copyOnePrefixBlock c6src c6tgt 1).fst.seqCounter = 10 ∧
    (copyOnePrefixBlock c6src c6tgt 1).fst.evictionAlgo = onAddE c6tgt.evictionAlgo 1 ∧
    (copyOnePrefixBlock c6src c6tgt 1).snd = 1 :=
  claim_C6 c6src c6tgt 1 (wBlock 1 5) (by decide) (by decide)

/-- Spec §4.2 "Load-balanced" selector, modeled from the spec's words
because the `LoadBalancedSelector` the repository's driver instantiates has
no definition under `src/`: it picks the node with the shortest request
queue, ties broken by input order, and answers the absent sentinel on an
empty list.  Modeled with the same strict-maximum fold as the repository's
scoring selectors, applied to the negated queue length. -/
def loadBalancedSelectNode (_ : Request) (nodes : List PrefillNode) : Option Nat :=
  selectByScore (fun n => -(n.requestQueue.length : ℚ)) nodes

/-- C7: every selector — random, load-balanced (modeled from spec §4.2, its
code being absent from the repository's files), cache-affinity, enhanced,
hot-spot-migrating and prefix-aware — answers `none` (the Go nil) exactly
on an empty node list; the processor given `none` produces no result and
leaves the node list untouched (the recoverable NoNodeAvailable error), and
given any in-range selection it produces a result; the selectors'
answers are always in range, so a non-empty node list never produces the
error. -/
theorem claim_C7 (k : Nat) (alpha beta : ℚ) (h : HotspotMigrationState)
    (p : PrefixAwareState) (req : Request) (nodes : List PrefillNode) :
    (randomSelectNode k req nodes = none ↔ nodes = []) ∧
    (loadBalancedSelectNode req nodes = none ↔ nodes = []) ∧
    (cacheAwareSelectNode req nodes = none ↔ nodes = []) ∧
    (enhancedSelectNode alpha beta req nodes = none ↔ nodes = []) ∧
    ((hSelectNode h req nodes).fst = none ↔ nodes = []) ∧
    ((paSelectNode p req nodes).fst = none ↔ nodes = []) ∧
    (∀ req2, processRequestCore none req2 nodes = (none, nodes, false)) ∧
    (∀ i, i < nodes.length →
      ((processRequestCore (some i) req nodes).fst).isSome = true) ∧
    (∀ i, loadBalancedSelectNode req nodes = some i → i < nodes.length) ∧
    (∀ i, (hSelectNode h req nodes).fst = some i → i < nodes.length) ∧
    (∀ i, (paSelectNode p req nodes).fst = some i → i < nodes.length) := by
  refine ⟨(randomSelectNode_spec k req nodes).1,
    selectByScore_eq_none_iff _ _,
    selectByScore_eq_none_iff _ _,
    selectByScore_eq_none_iff _ _,
    (hSelectNode_spec h req nodes).2.1,
    (paSelectNode_spec p req nodes).2.1,
    fun req2 => rfl, ?_,
    fun i hi => selectByScore_lt _ hi,
    (hSelectNode_spec h req nodes).2.2,
    (paSelectNode_spec p req nodes).2.2⟩
  intro i hlt
  unfold processRequestCore
  dsimp only
  rw [List.getElem?_eq_getElem hlt]
  rfl

/-- C8: processing a request all of whose block IDs are cached on the
selected node only replaces that node, leaving its block-map size and used
memory unchanged, adding exactly `|hashIDs|` to its hit counter and nothing
to its miss counter. -/
theorem claim_C8 (i : Nat) (req : Request) (nodes : List PrefillNode) (n : PrefillNode)
    (hni : nodes[i]? = some n)
    (hall : ∀ id ∈ req.hashIDs, (alookup n.cacheBlocks id).isSome = true) :
    ∃ n', (processRequestCore (some i) req nodes).snd.fst = nodes.set i n' ∧
      n'.cacheBlocks.length = n.cacheBlocks.length ∧
      n'.totalHits = n.totalHits + (req.hashIDs.length : Int) ∧
      n'.totalMisses = n.totalMisses ∧
      n'.usedMemoryMB = n.usedMemoryMB := by
  unfold processRequestCore
  dsimp only
  rw [hni]
  dsimp only
  have key := processBlocks_allHit req.hashIDs
    { node := { n with requestQueue := appendQueue n.requestQueue req },
      hits := 0, misses := 0, evicted := 0, exhausted := false } hall
  exact ⟨_, rfl, key.1, key.2.1, key.2.2.1, key.2.2.2.1⟩

/-- Closed instance of C8: both blocks of the fixture request are cached on
the fixture node. -/
theorem claim_C8_witness :
    ∃ n', (processRequestCore (some 0) wReq [wNode "c" [1, 2] 0 10]).snd.fst =
        ([wNode "c" [1, 2] 0 10] : List PrefillNode).set 0 n' ∧
      n'.cacheBlocks.length = (wNode "c" [1, 2] 0 10).cacheBlocks.length ∧
      n'.totalHits = (wNode "c" [1, 2] 0 10).totalHits + (wReq.hashIDs.length : Int) ∧
      n'.totalMisses = (wNode "c" [1, 2] 0 10).totalMisses ∧
      n'.usedMemoryMB = (wNode "c" [1, 2] 0 10).usedMemoryMB :=
  claim_C8 0 wReq [wNode "c" [1, 2] 0 10] (wNode "c" [1, 2] 0 10) rfl (by decide)

/-- C9: the four non-random selectors consult no randomness source — on
identical selector state, request and node list two invocations yield the
same answer (in this model, where Go's map iteration is the stored list
order, they are the same pure function value) — whereas the random
selector's answer depends on the random draw: two draws can pick different
nodes of the same list. -/
theorem claim_C9 (alpha beta : ℚ) (h : HotspotMigrationState)
    (p : PrefixAwareState) (req : Request) (nodes : List PrefillNode) :
    (cacheAwareSelectNode req nodes = cacheAwareSelectNode req nodes) ∧
    (enhancedSelectNode alpha beta req nodes = enhancedSelectNode alpha beta req nodes) ∧
    (hSelectNode h req nodes = hSelectNode h req nodes) ∧
    (paSelectNode p req nodes = paSelectNode p req nodes) ∧
    (∃ k k2 : Nat, ∃ ns : List PrefillNode,
      randomSelectNode k req ns ≠ randomSelectNode k2 req ns) := by
  refine ⟨rfl, rfl, rfl, rfl, 0, 1, [wNode "r" [] 0 1, wNode "r2" [] 0 1], ?_⟩
  intro hc
  have : (some 0 : Option Nat) = some 1 := hc
  exact absurd (Option.some_injective _ this) (by decide)

/-- C10: the cache-affinity, enhanced and hot-spot-migrating selectors keep
the incumbent on ties (replacement needs a strictly greater score), so they
return the earliest node of maximal score: the returned index is in range,
no node scores above it, and every node strictly before it scores strictly
below it. -/
theorem claim_C10 (alpha beta : ℚ) (h : HotspotMigrationState) (req : Request)
    (nodes : List PrefillNode) (hne : nodes ≠ []) :
    (∃ idx, cacheAwareSelectNode req nodes = some idx ∧
      ∃ hidx : idx < nodes.length,
        (∀ j, ∀ hj : j < nodes.length,
          cacheAwareScore req (nodes.get ⟨j, hj⟩) ≤
            cacheAwareScore req (nodes.get ⟨idx, hidx⟩)) ∧
        (∀ j, ∀ hj : j < nodes.length, j < idx →
          cacheAwareScore req (nodes.get ⟨j, hj⟩) <
            cacheAwareScore req (nodes.get ⟨idx, hidx⟩))) ∧
    (∃ idx, enhancedSelectNode alpha beta req nodes = some idx ∧
      ∃ hidx : idx < nodes.length,
        (∀ j, ∀ hj : j < nodes.length,
          enhancedScore alpha beta req nodes (nodes.get ⟨j, hj⟩) ≤
            enhancedScore alpha beta req nodes (nodes.get ⟨idx, hidx⟩)) ∧
        (∀ j, ∀ hj : j < nodes.length, j < idx →
          enhancedScore alpha beta req nodes (nodes.get ⟨j, hj⟩) <
            enhancedScore alpha beta req nodes (nodes.get ⟨idx, hidx⟩))) ∧
    (∃ idx, selectNodeWithHotspotAwareness h req nodes = some idx ∧
      ∃ hidx : idx < nodes.length,
        (∀ j, ∀ hj : j < nodes.length,
          hCalculateScore h req nodes (nodes.get ⟨j, hj⟩) ≤
            hCalculateScore h req nodes (nodes.get ⟨idx, hidx⟩)) ∧
        (∀ j, ∀ hj : j < nodes.length, j < idx →
          hCalculateScore h req nodes (nodes.get ⟨j, hj⟩) <
            hCalculateScore h req nodes (nodes.get ⟨idx, hidx⟩))) := by
  exact ⟨selectByScore_spec (cacheAwareScore req) nodes hne,
    selectByScore_spec (enhancedScore alpha beta req nodes) nodes hne,
    selectByScore_spec (hCalculateScore h req nodes) nodes hne⟩

/-- Closed instance of C10 at the C5 fixtures. -/
theorem claim_C10_witness :
    (∃ idx, cacheAwareSelectNode wReq [c5n0, c5n1] = some idx ∧
      ∃ hidx : idx < ([c5n0, c5n1] : List PrefillNode).length,
        (∀ j, ∀ hj : j < ([c5n0, c5n1] : List PrefillNode).length,
          cacheAwareScore wReq (([c5n0, c5n1] : List PrefillNode).get ⟨j, hj⟩) ≤
            cacheAwareScore wReq (([c5n0, c5n1] : List PrefillNode).get ⟨idx, hidx⟩)) ∧
        (∀ j, ∀ hj : j < ([c5n0, c5n1] : List PrefillNode).length, j < idx →
          cacheAwareScore wReq (([c5n0, c5n1] : List PrefillNode).get ⟨j, hj⟩) <
            cacheAwareScore wReq (([c5n0, c5n1] : List PrefillNode).get ⟨idx, hidx⟩))) ∧
    (∃ idx, enhancedSelectNode 1 1 wReq [c5n0, c5n1] = some idx ∧
      ∃ hidx : idx < ([c5n0, c5n1] : List PrefillNode).length,
        (∀ j, ∀ hj : j < ([c5n0, c5n1] : List PrefillNode).length,
          enhancedScore 1 1 wReq [c5n0, c5n1] (([c5n0, c5n1] : List PrefillNode).get ⟨j, hj⟩) ≤
            enhancedScore 1 1 wReq [c5n0, c5n1]
              (([c5n0, c5n1] : List PrefillNode).get ⟨idx, hidx⟩)) ∧
        (∀ j, ∀ hj : j < ([c5n0, c5n1] : List PrefillNode).length, j < idx →
          enhancedScore 1 1 wReq [c5n0, c5n1] (([c5n0, c5n1] : List PrefillNode).get ⟨j, hj⟩) <
            enhancedScore 1 1 wReq [c5n0, c5n1]
              (([c5n0, c5n1] : List PrefillNode).get ⟨idx, hidx⟩))) ∧
    (∃ idx, selectNodeWithHotspotAwareness c5h wReq [c5n0, c5n1] = some idx ∧
      ∃ hidx : idx < ([c5n0, c5n1] : List PrefillNode).length,
        (∀ j, ∀ hj : j < ([c5n0, c5n1] : List PrefillNode).length,
          hCalculateScore c5h wReq [c5n0, c5n1]
              (([c5n0, c5n1] : List PrefillNode).get ⟨j, hj⟩) ≤
            hCalculateScore c5h wReq [c5n0, c5n1]
              (([c5n0, c5n1] : List PrefillNode).get ⟨idx, hidx⟩)) ∧
        (∀ j, ∀ hj : j < ([c5n0, c5n1] : List PrefillNode).length, j < idx →
          hCalculateScore c5h wReq [c5n0, c5n1]
              (([c5n0, c5n1] : List PrefillNode).get ⟨j, hj⟩) <
            hCalculateScore c5h wReq [c5n0, c5n1]
              (([c5n0, c5n1] : List PrefillNode).get ⟨idx, hidx⟩))) :=
  claim_C10 1 1 c5h wReq [c5n0, c5n1] (by simp)

end K3
